import Mathlib

/-!
# Verification of the GraphQL fragment optimizer (selection-set algebra and reuse engine)

Shallow embedding of `apollo-federation/src/operation/optimize.rs` and
`apollo-federation/src/operation/selection_map.rs`.

The data model (selection trees, fragments, schema queries) lives in modules of
this repository that are not part of the provided sources (`operation/mod.rs`,
the schema layer); those parts are modelled from the specification and each
such definition carries a doc comment starting with `Modelled from the spec:`.
Every other definition is translated from the Rust sources named in its doc
comment.

Conventions:
* Rust `IndexMap`/`IndexSet` become insertion-ordered lists.
* The schema handle is an explicit `Schema` value of query functions
  (identity-compared handles in Rust; claims here never mix schemas).
* `Result<T, FederationError>` becomes `Except FedError T` where the error is
  control-flow relevant; functions whose only failure source is internal
  plumbing that cannot fail in the model are total.
* The memoizing `FragmentRestrictionAtTypeCache` is semantically transparent
  (it caches a deterministic pure function) and is modelled by recomputation.
-/

set_option maxHeartbeats 1600000
set_option linter.unnecessarySeqFocus false

namespace Router

abbrev TypeName := String

/-- Modelled from the spec: a directive with its argument list; directive
normalization sorts each directive's arguments by name (§3). -/
structure Directive where
  name : String
  args : List (String × String)
  deriving DecidableEq, Repr

/-- Insertion step of a stable insertion sort of argument lists by argument
name (kept structurally recursive so that it evaluates by definitional
unfolding). -/
def insertArgSorted (x : String × String) : List (String × String) → List (String × String)
  | [] => [x]
  | y :: ys => if x.1 ≤ y.1 then x :: y :: ys else y :: insertArgSorted x ys

/-- Stable sort of an argument list by argument name. -/
def sortArgsByName (l : List (String × String)) : List (String × String) :=
  l.foldr insertArgSorted []

/-- Modelled from the spec: normalization of a directive sorts its arguments
by argument name; directive order in a list is preserved and significant. -/
def Directive.norm (d : Directive) : Directive :=
  { d with args := sortArgsByName d.args }

def normDirectives (ds : List Directive) : List Directive :=
  ds.map Directive.norm

/-- Modelled from the spec: data of a field selection — field name, optional
alias, arguments, directives, optional `sibling_typename` marker (§3); the
parent type and (composite) output base type come from the schema and are
carried on the value as in the Rust `Field` (which holds its definition). -/
structure FieldData where
  parentType : TypeName
  name : String
  alias? : Option String
  args : List (String × String)
  directives : List Directive
  siblingTypename : Option String
  /-- Base type of the field's output; `none` when it is not a composite type. -/
  outputBaseType : Option TypeName
  /-- Name of the field's output type, used by `types_can_be_merged`. -/
  outputType : TypeName
  deriving DecidableEq, Repr

/-- Modelled from the spec: response name = alias or name (§3). -/
def FieldData.responseName (d : FieldData) : String :=
  d.alias?.getD d.name

/-- Modelled from the spec: data of an inline fragment — optional type
condition and directives (§3). -/
structure InlineFragData where
  typeCondition : Option TypeName
  directives : List Directive
  deriving DecidableEq, Repr

/-- Modelled from the spec: data of a fragment spread — fragment name and
directives at the spread site (§3); the resolved type condition and the
fragment's selection set are carried alongside on the selection. -/
structure SpreadData where
  fragmentName : String
  directives : List Directive
  deriving DecidableEq, Repr

/-- Modelled from the spec: a selection is a field, an inline fragment, or a
fragment spread (§3).  A field may lack a sub-selection set; inline fragments
and spreads always carry one (for a spread: the referenced fragment's
selection set, recorded for convenience).  The sub-selection set is stored as
its parent type paired with its child list; `SelectionSet` below is the
record view of that pair. -/
inductive Selection where
  | field (d : FieldData) (sub : Option (TypeName × List Selection))
  | inlineFragment (d : InlineFragData) (subTy : TypeName) (subSels : List Selection)
  | fragmentSpread (d : SpreadData) (subTy : TypeName) (subSels : List Selection)
  deriving Repr

/-- Modelled from the spec: a selection set carries a parent (composite) type
and the ordered map of child selections (§3).  The Rust value also carries a
schema handle, compared by identity; the model keeps one ambient schema. -/
structure SelectionSet where
  typePosition : TypeName
  selections : List Selection
  deriving Repr

/-- From `selection_map.rs` (`enum SelectionKey`): the merge key of a
selection.  The Rust `Defer` variant cannot occur at this stage of the
pipeline (see the PORT_NOTE on `FullMatchingFragmentCondition::check`), so
selections in the model always produce one of the three ordinary keys. -/
inductive SelectionKey where
  | field (responseName : String) (directives : List Directive)
  | fragmentSpread (fragmentName : String) (directives : List Directive)
  | inlineFragment (typeCondition : Option TypeName) (directives : List Directive)
  deriving DecidableEq, Repr

/-- From `selection_map.rs` (`HasSelectionKey::key` as documented on
`SelectionKey`): response name / fragment name / type condition plus the
normalized directive list. -/
def Selection.key : Selection → SelectionKey
  | .field d _ => .field d.responseName (normDirectives d.directives)
  | .inlineFragment d _ _ => .inlineFragment d.typeCondition (normDirectives d.directives)
  | .fragmentSpread d _ _ => .fragmentSpread d.fragmentName (normDirectives d.directives)

/-- The non-recursive part of a selection (everything but the sub-selection
set); used to compare two selections shallowly. -/
inductive SelData where
  | field (d : FieldData) (hasSub : Bool)
  | inlineFragment (d : InlineFragData)
  | fragmentSpread (d : SpreadData)
  deriving DecidableEq, Repr

def Selection.data : Selection → SelData
  | .field d sub => .field d sub.isSome
  | .inlineFragment d _ _ => .inlineFragment d
  | .fragmentSpread d _ _ => .fragmentSpread d

/-- The sub-selection set of a selection, if any
(`Selection::selection_set` in the Rust code). -/
def Selection.selectionSet : Selection → Option SelectionSet
  | .field _ none => none
  | .field _ (some (ty, sels)) => some ⟨ty, sels⟩
  | .inlineFragment _ ty sels => some ⟨ty, sels⟩
  | .fragmentSpread _ ty sels => some ⟨ty, sels⟩

/-- `Selection::with_updated_selections` from `operation/mod.rs` (modelled
from the spec: rebuild the selection with a new sub-selection set whose
parent type is the given one). -/
def Selection.withUpdatedSelections (s : Selection) (ty : TypeName)
    (sels : List Selection) : Selection :=
  match s with
  | .field d _ => .field d (some (ty, sels))
  | .inlineFragment d _ _ => .inlineFragment d ty sels
  | .fragmentSpread d _ _ => .fragmentSpread d ty sels

/-! ## Selection map (`selection_map.rs`)

The Rust `SelectionMap` is a vector of selections plus a `hashbrown`
`RawTable` index from selection keys to vector positions.  The model keeps
the vector; keyed lookup scans for the first entry with the requested key
(for maps whose entries have pairwise distinct keys — the documented
invariant — this agrees with the hash-table lookup). -/

structure SelectionMap where
  selections : List Selection
  deriving Repr

namespace SelectionMap

/-- `SelectionMap::new`. -/
def new : SelectionMap := ⟨[]⟩

/-- `SelectionMap::len`. -/
def len (m : SelectionMap) : Nat := m.selections.length

/-- `SelectionMap::is_empty`. -/
def isEmpty (m : SelectionMap) : Bool := m.selections.isEmpty

/-- `SelectionMap::first`. -/
def first (m : SelectionMap) : Option Selection := m.selections.head?

/-- `SelectionMap::get`: find the entry with the given key. -/
def get (m : SelectionMap) (k : SelectionKey) : Option Selection :=
  m.selections.find? (fun s => s.key = k)

/-- `SelectionMap::contains_key`. -/
def containsKey (m : SelectionMap) (k : SelectionKey) : Bool :=
  (m.get k).isSome

/-- `SelectionMap::raw_insert`: pushes the value at the end of the selection
vector and records its index in the hash table.  Note that
`RawTable::insert` never checks whether an entry with an equal key is
already present, so a duplicate key results in two live entries. -/
def rawInsert (m : SelectionMap) (value : Selection) : SelectionMap :=
  ⟨m.selections ++ [value]⟩

/-- `SelectionMap::insert`. -/
def insert (m : SelectionMap) (value : Selection) : SelectionMap :=
  m.rawInsert value

/-- `SelectionMap::retain`. -/
def retain (m : SelectionMap) (p : SelectionKey → Selection → Bool) : SelectionMap :=
  ⟨m.selections.filter (fun s => p s.key s)⟩

/-- The list of keys of the map's entries, in insertion order. -/
def keys (m : SelectionMap) : List SelectionKey :=
  m.selections.map Selection.key

end SelectionMap

/-! ## Value equality

The Rust `PartialEq` on `Selection` is derived structurally, except that
every contained `SelectionMap` compares order-independently
(`impl PartialEq for SelectionMap` in `selection_map.rs`: equal lengths, and
every entry of the left map is matched by an entry of the right map with the
same key and equal value). -/

mutual

/-- Rust `PartialEq` for `Selection`: shallow data equality plus recursive
(order-independent) equality of the sub-selection maps. -/
def Selection.beqv : Selection → Selection → Bool
  | .field d1 none, .field d2 none => d1 == d2
  | .field d1 (some (ty1, s1)), .field d2 (some (ty2, s2)) =>
      d1 == d2 && ty1 == ty2 && (s1.length == s2.length) && mapAllMatch s1 s2
  | .inlineFragment d1 ty1 s1, .inlineFragment d2 ty2 s2 =>
      d1 == d2 && ty1 == ty2 && (s1.length == s2.length) && mapAllMatch s1 s2
  | .fragmentSpread d1 ty1 s1, .fragmentSpread d2 ty2 s2 =>
      d1 == d2 && ty1 == ty2 && (s1.length == s2.length) && mapAllMatch s1 s2
  | _, _ => false

/-- Every entry of `self` is matched, by key, by an equal entry of
`other`. -/
def mapAllMatch : List Selection → List Selection → Bool
  | [], _ => true
  | l :: rest, other =>
      (match other.find? (fun r => decide (r.key = l.key)) with
       | none => false
       | some r => Selection.beqv l r) &&
        mapAllMatch rest other

end

/-- Rust `PartialEq` for `SelectionMap` (order-independent): the sizes agree
and every entry of `self` is matched, by key, by an equal entry of `other`. -/
def mapEqv (self other : List Selection) : Bool :=
  (self.length == other.length) && mapAllMatch self other

/-- Rust `PartialEq` for `SelectionSet`: parent type and order-independent
selection-map equality (the schema handle comparison is identity and is
ambient in the model). -/
def SelectionSet.eqv (s t : SelectionSet) : Bool :=
  s.typePosition == t.typePosition && mapEqv s.selections t.selections

/-! ## Set algebra: `minus` and `intersection` (`optimize.rs`, lines 215–317) -/

/-- Keyed lookup in a raw child list (the `selections.get(k)` calls of
`SelectionSet::minus`/`intersection`). -/
def listGet (l : List Selection) (k : SelectionKey) : Option Selection :=
  l.find? (fun r => decide (r.key = k))

mutual

/-- `Selection::minus`: when both selections have sub-selection sets, their
difference is computed and the result is emitted only when non-empty;
otherwise there is no difference. -/
def Selection.minus (s o : Selection) : Option Selection :=
  match s with
  | .field d (some (ty, ss)) =>
      match o.selectionSet with
      | some osub =>
          let diff := listMinus ss osub.selections
          if diff.isEmpty then none else some (.field d (some (ty, diff)))
      | none => none
  | .field _ none => none
  | .inlineFragment d ty ss =>
      match o.selectionSet with
      | some osub =>
          let diff := listMinus ss osub.selections
          if diff.isEmpty then none else some (.inlineFragment d ty diff)
      | none => none
  | .fragmentSpread d ty ss =>
      match o.selectionSet with
      | some osub =>
          let diff := listMinus ss osub.selections
          if diff.isEmpty then none else some (.fragmentSpread d ty diff)
      | none => none

/-- Child-list part of `SelectionSet::minus`: each child of `self` keyed `k`
is kept verbatim when `k` is absent from `other`, and otherwise replaced by
the (possibly empty) selection-level difference. -/
def listMinus (self other : List Selection) : List Selection :=
  match self with
  | [] => []
  | s :: rest =>
      (match listGet other s.key with
       | some ov => (Selection.minus s ov).toList
       | none => [s]) ++ listMinus rest other

end

mutual

/-- `Selection::intersection`: when both selections have sub-selection sets,
their intersection is computed and emitted only when non-empty; otherwise the
intersection is `self` itself. -/
def Selection.intersection (s o : Selection) : Option Selection :=
  match s with
  | .field d (some (ty, ss)) =>
      match o.selectionSet with
      | some osub =>
          let common := listIntersection ss osub.selections
          if common.isEmpty then none else some (.field d (some (ty, common)))
      | none => some (.field d (some (ty, ss)))
  | .field d none => some (.field d none)
  | .inlineFragment d ty ss =>
      match o.selectionSet with
      | some osub =>
          let common := listIntersection ss osub.selections
          if common.isEmpty then none else some (.inlineFragment d ty common)
      | none => some (.inlineFragment d ty ss)
  | .fragmentSpread d ty ss =>
      match o.selectionSet with
      | some osub =>
          let common := listIntersection ss osub.selections
          if common.isEmpty then none else some (.fragmentSpread d ty common)
      | none => some (.fragmentSpread d ty ss)

/-- Child-list part of `SelectionSet::intersection`: a child is present only
when its key exists on both sides. -/
def listIntersection (self other : List Selection) : List Selection :=
  match self with
  | [] => []
  | s :: rest =>
      (match listGet other s.key with
       | some ov => (Selection.intersection s ov).toList
       | none => []) ++ listIntersection rest other

end

/-- `SelectionSet::minus`: element-wise difference, keeping `self`'s parent
type. -/
def SelectionSet.minus (s t : SelectionSet) : SelectionSet :=
  ⟨s.typePosition, listMinus s.selections t.selections⟩

/-- `SelectionSet::is_empty`. -/
def SelectionSet.isEmpty (s : SelectionSet) : Bool :=
  s.selections.isEmpty

/-- `SelectionSet::intersection`: element-wise intersection; an empty operand
is returned as-is (the Rust short-circuits return `self.clone()` resp.
`other.clone()`). -/
def SelectionSet.intersection (s t : SelectionSet) : SelectionSet :=
  if s.selections.isEmpty then s
  else if t.selections.isEmpty then t
  else ⟨s.typePosition, listIntersection s.selections t.selections⟩

/-- The keys of a raw child list, in order. -/
def keysOf (l : List Selection) : List SelectionKey := l.map Selection.key

mutual

/-- Invariant 1 of the spec (§3), per selection: every nested selection set
has pairwise distinct child keys. -/
def Selection.wf : Selection → Bool
  | .field _ none => true
  | .field _ (some (_, sels)) => decide (keysOf sels).Nodup && wfAll sels
  | .inlineFragment _ _ sels => decide (keysOf sels).Nodup && wfAll sels
  | .fragmentSpread _ _ sels => decide (keysOf sels).Nodup && wfAll sels

/-- All selections of a child list are well-formed. -/
def wfAll : List Selection → Bool
  | [] => true
  | s :: rest => s.wf && wfAll rest

end

/-- Invariant 1 of the spec (§3), per child list: distinct keys here and in
every nested selection set. -/
def wfSels (l : List Selection) : Bool :=
  decide (keysOf l).Nodup && wfAll l

/-! ## Concrete selections used as inputs of evaluation theorems -/

/-- A leaf field selection `a` of `T` with no arguments. -/
def fieldA : Selection :=
  .field ⟨"T", "a", none, [], [], none, none, "Int"⟩ none

/-- A leaf field selection `a(x: 1)` of `T`: same response name and directives
as `fieldA` — hence the same selection key — but different arguments, so a
different selection value. -/
def fieldAx : Selection :=
  .field ⟨"T", "a", none, [("x", "1")], [], none, none, "Int"⟩ none

/-- A leaf field selection `b` of `T`. -/
def fieldB : Selection :=
  .field ⟨"T", "b", none, [], [], none, none, "Int"⟩ none

/-- A leaf field selection `x` of `A`. -/
def fieldX : Selection :=
  .field ⟨"A", "x", none, [], [], none, none, "Int"⟩ none

/-- The field selection `a { x }` of `T` (output type `A`). -/
def fieldASub : Selection :=
  .field ⟨"T", "a", none, [], [], none, none, "A"⟩ (some ("A", [fieldX]))

/-- A leaf field selection `a` of `T` with output type `A`: shares its key
with `fieldASub` but has no sub-selection set. -/
def fieldALeaf : Selection :=
  .field ⟨"T", "a", none, [], [], none, none, "A"⟩ none

/-- The selection set `{ a { x } }` at `T`. -/
def setS7 : SelectionSet := ⟨"T", [fieldASub]⟩

/-- The selection set `{ a }` at `T`. -/
def setT7 : SelectionSet := ⟨"T", [fieldALeaf]⟩

/-- The selection set `{ a }` at `T`. -/
def setC6S : SelectionSet := ⟨"T", [fieldA]⟩

/-- The selection set `{ b }` at `T`. -/
def setC6T : SelectionSet := ⟨"T", [fieldB]⟩

/-! ## Schema interface and fragments -/

/-- Modelled from the spec: the schema interface consumed by the optimizer
(§6) — kind predicates, possible runtime types, and the type-merge
predicate.  A handle is read-only and shared. -/
structure Schema where
  isObjectType : TypeName → Bool
  isInterfaceType : TypeName → Bool
  isUnionType : TypeName → Bool
  possibleRuntimeTypes : TypeName → List TypeName
  typesCanBeMerged : TypeName → TypeName → Bool

/-- Modelled from the spec: abstract types are interfaces and unions. -/
def Schema.isAbstractType (sch : Schema) (t : TypeName) : Bool :=
  sch.isInterfaceType t || sch.isUnionType t

/-- `IndexSet::is_superset` on runtime-type lists. -/
def isSupersetOf (big small : List TypeName) : Bool :=
  small.all (fun t => big.contains t)

/-- Modelled from the spec: a named fragment — name, type condition,
directives, selection set, bound to the (ambient) schema (§3). -/
structure Fragment where
  name : String
  typeCondition : TypeName
  directives : List Directive
  selectionSet : SelectionSet
  deriving Repr

/-- Modelled from the spec: the fragment catalog is an ordered mapping from
name to fragment, sorted in dependency order (§3). -/
abbrev NamedFragments := List Fragment

/-- `Fragment::can_apply_directly_at_type` (`optimize.rs` lines 333–371):
short-circuit on an equal type; reject non-abstract conditions; reject a
non-union condition at a non-object `ty`; otherwise compare runtime-type
sets. -/
def Fragment.canApplyDirectlyAtType (sch : Schema) (f : Fragment)
    (ty : TypeName) : Bool :=
  if f.typeCondition = ty then true
  else if !(sch.isAbstractType f.typeCondition) then false
  else if !(sch.isUnionType f.typeCondition) && !(sch.isObjectType ty) then false
  else isSupersetOf (sch.possibleRuntimeTypes f.typeCondition)
    (sch.possibleRuntimeTypes ty)

/-- `NamedFragments::get_all_may_apply_directly_at_type` (`optimize.rs`
lines 376–387). -/
def getAllMayApplyDirectlyAtType (sch : Schema) (frags : NamedFragments)
    (ty : TypeName) : List Fragment :=
  frags.filter (fun f => f.canApplyDirectlyAtType sch ty)

/-- The acceptance predicate claimed by the spec sentence for
`get_all_may_apply_directly_at_type`: the condition equals `ty`, or is
abstract with a superset of `ty`'s runtime types. -/
def claimedMayApply (sch : Schema) (f : Fragment) (ty : TypeName) : Bool :=
  f.typeCondition == ty ||
    (sch.isAbstractType f.typeCondition &&
      isSupersetOf (sch.possibleRuntimeTypes f.typeCondition)
        (sch.possibleRuntimeTypes ty))

/-- The acceptance predicate actually implemented: as claimed, but an
abstract non-union condition only applies when `ty` is an object type. -/
def amendedMayApply (sch : Schema) (f : Fragment) (ty : TypeName) : Bool :=
  f.typeCondition == ty ||
    (sch.isAbstractType f.typeCondition &&
      (sch.isUnionType f.typeCondition || sch.isObjectType ty) &&
      isSupersetOf (sch.possibleRuntimeTypes f.typeCondition)
        (sch.possibleRuntimeTypes ty))

/-- Concrete schema for the `C5` counterexample: objects `A`, `B`;
interface `I` implemented by `A` and `B`; interface `J` implemented by `A`
only (so `J`'s runtime types are a subset of `I`'s). -/
def schemaC5 : Schema where
  isObjectType := fun t => t == "A" || t == "B"
  isInterfaceType := fun t => t == "I" || t == "J"
  isUnionType := fun _ => false
  possibleRuntimeTypes := fun t =>
    if t == "I" then ["A", "B"] else if t == "J" then ["A"] else [t]
  typesCanBeMerged := fun _ _ => true

/-- A fragment on the interface `I`. -/
def fragI : Fragment := ⟨"FI", "I", [], ⟨"I", [fieldB]⟩⟩

/-! ## Containment (modelled from the spec, §4.3)

`SelectionSet::containment` lives in `operation/mod.rs`, outside the provided
sources.  Modelled from the spec: an order-independent subset comparison
returning `NotContained`, `StrictlyContained` (self ⊋ other) or `Equal`, with
the single non-strict rule `ignore_missing_typename`: a plain `__typename`
child present in `other` but absent in `self` is treated as compatible. -/

inductive Containment where
  | notContained
  | strictlyContained
  | equal
  deriving DecidableEq, Repr

/-- Whether a key is the plain `__typename` field without directives. -/
def SelectionKey.isPlainTypename : SelectionKey → Bool
  | .field rn dirs => rn == "__typename" && dirs.isEmpty
  | _ => false

/-- Whether a key is a fragment-spread key. -/
def SelectionKey.isSpreadKey : SelectionKey → Bool
  | .fragmentSpread _ _ => true
  | _ => false

mutual

/-- Modelled from the spec: containment of one selection in another with the
same key — the shallow data must agree, and the sub-selection sets (when both
are present) are compared recursively; a sub-selection on exactly one side
does not contain the other. -/
def containmentSel (ignoreTn : Bool) (s o : Selection) : Containment :=
  match o with
  | .field od osub =>
      match s, osub with
      | .field sd none, none =>
          if sd == od then .equal else .notContained
      | .field sd (some (_, ssels)), some (_, osels) =>
          if ({ sd with outputBaseType := none } : FieldData) ==
              { od with outputBaseType := none } then
            match containmentWalk ignoreTn ssels osels with
            | none => .notContained
            | some (m, alleq) =>
                if m == ssels.length && alleq then .equal else .strictlyContained
          else .notContained
      | _, _ => .notContained
  | .inlineFragment od _ osels =>
      match s with
      | .inlineFragment sd _ ssels =>
          if sd == od then
            match containmentWalk ignoreTn ssels osels with
            | none => .notContained
            | some (m, alleq) =>
                if m == ssels.length && alleq then .equal else .strictlyContained
          else .notContained
      | _ => .notContained
  | .fragmentSpread od _ osels =>
      match s with
      | .fragmentSpread sd _ ssels =>
          if sd == od then
            match containmentWalk ignoreTn ssels osels with
            | none => .notContained
            | some (m, alleq) =>
                if m == ssels.length && alleq then .equal else .strictlyContained
          else .notContained
      | _ => .notContained

/-- Walk over `other`'s children; returns `none` on a non-contained child and
otherwise the number of matched children together with whether every match
was `Equal`. -/
def containmentWalk (ignoreTn : Bool) (self : List Selection) :
    List Selection → Option (Nat × Bool)
  | [] => some (0, true)
  | o :: rest =>
      match containmentWalk ignoreTn self rest with
      | none => none
      | some (m, alleq) =>
          match listGet self o.key with
          | none =>
              if ignoreTn && o.key.isPlainTypename then some (m, alleq) else none
          | some s =>
              match containmentSel ignoreTn s o with
              | .notContained => none
              | .equal => some (m + 1, alleq)
              | .strictlyContained => some (m + 1, false)

end

/-- Modelled from the spec: containment of child lists — every (non-ignored)
child of `other` must be contained in the same-keyed child of `self`;
`Equal` when additionally every such pair is `Equal` and `self` has no extra
children. -/
def containmentChildren (ignoreTn : Bool) (self other : List Selection) :
    Containment :=
  match containmentWalk ignoreTn self other with
  | none => .notContained
  | some (m, alleq) =>
      if m == self.length && alleq then .equal else .strictlyContained

/-- Options of `SelectionSet::containment`. -/
structure ContainmentOptions where
  ignoreMissingTypename : Bool

/-- Modelled from the spec: `SelectionSet::containment`. -/
def SelectionSet.containment (s : SelectionSet) (other : SelectionSet)
    (opts : ContainmentOptions) : Containment :=
  containmentChildren opts.ignoreMissingTypename s.selections other.selections

/-! ## Merge (modelled from the spec, §4.2)

`add_local_selection` / `add_local_selection_set` live in `operation/mod.rs`,
outside the provided sources.  Modelled from the spec: adding into an
existing selection set merges on key collision, recursing into sub-selection
sets.  The recursion of the merge is not structural (an accumulated entry is
merged with a new selection), so the model uses an explicit fuel that every
call strictly decreases; the fuel-exhaustion branches are unreachable for the
fuel chosen by the wrappers below, since the recursion depth is bounded by
the nesting depth of the merged selections (spec §5 bounds all recursion by
selection-tree depth). -/

mutual

/-- Merge two selections assumed to share a key: keep the first selection's
data and merge the sub-selection sets when both sides have one. -/
def mergeSelFuel : Nat → Selection → Selection → Selection
  | 0, a, _ => a
  | fuel + 1, a, b =>
      match a, b with
      | .field ad (some (aty, asels)), .field _ (some (_, bsels)) =>
          .field ad (some (aty, addAllLocalFuel fuel asels bsels))
      | .inlineFragment ad aty asels, .inlineFragment _ _ bsels =>
          .inlineFragment ad aty (addAllLocalFuel fuel asels bsels)
      | .fragmentSpread ad aty asels, .fragmentSpread _ _ bsels =>
          .fragmentSpread ad aty (addAllLocalFuel fuel asels bsels)
      | _, _ => a

/-- Insert one selection into a child list: merge into the entry with an
equal key if present, otherwise append at the end. -/
def addOneLocalFuel : Nat → List Selection → Selection → List Selection
  | 0, target, _ => target
  | _ + 1, [], b => [b]
  | fuel + 1, t :: rest, b =>
      if t.key = b.key then mergeSelFuel fuel t b :: rest
      else t :: addOneLocalFuel fuel rest b

/-- Insert every selection of `new` into `target`, in order. -/
def addAllLocalFuel : Nat → List Selection → List Selection → List Selection
  | 0, target, _ => target
  | _ + 1, target, [] => target
  | fuel + 1, target, n :: rest =>
      addAllLocalFuel fuel (addOneLocalFuel fuel target n) rest

end

mutual

/-- Node count of a selection tree (spread bodies included); a computable
size used to pick sufficient fuel. -/
def Selection.size : Selection → Nat
  | .field _ none => 1
  | .field _ (some (_, sels)) => 1 + sizeList sels
  | .inlineFragment _ _ sels => 1 + sizeList sels
  | .fragmentSpread _ _ sels => 1 + sizeList sels

/-- Node count of a child list. -/
def sizeList : List Selection → Nat
  | [] => 1
  | s :: rest => 1 + s.size + sizeList rest

end

/-- Fuel that suffices for any merge of the two lists (the fuel is consumed
along one recursion path only, whose length is bounded by the node
counts). -/
def mergeFuel (target new : List Selection) : Nat :=
  (sizeList target + sizeList new + 1) * (sizeList target + sizeList new + 1)

/-- Modelled from the spec: `SelectionSet::add_local_selection` on child
lists. -/
def addOneLocal (target : List Selection) (b : Selection) : List Selection :=
  addOneLocalFuel (mergeFuel target [b]) target b

/-- Modelled from the spec: `SelectionSet::add_local_selection_set` on child
lists. -/
def addAllLocal (target new : List Selection) : List Selection :=
  addAllLocalFuel (mergeFuel target new) target new

/-! ## Expansion (modelled from the spec, §4.2) -/

mutual

/-- Modelled from the spec: `expand_all_fragments` rewrites every fragment
spread into an equivalent inline fragment whose body is the fragment's
selection set, recursively. -/
def Selection.expandAllFragments : Selection → Selection
  | .field d none => .field d none
  | .field d (some (ty, sels)) => .field d (some (ty, expandList sels))
  | .inlineFragment d ty sels => .inlineFragment d ty (expandList sels)
  | .fragmentSpread d ty sels =>
      .inlineFragment ⟨some ty, d.directives⟩ ty (expandList sels)

/-- Expand every selection of a child list. -/
def expandList : List Selection → List Selection
  | [] => []
  | s :: rest => s.expandAllFragments :: expandList rest

end

/-- Modelled from the spec: `SelectionSet::expand_all_fragments`. -/
def SelectionSet.expandAllFragments (s : SelectionSet) : SelectionSet :=
  ⟨s.typePosition, expandList s.selections⟩

/-! ## Flattening (modelled from the spec, §4.2) -/

/-- Modelled from the spec: an inline-fragment type condition is trivially
satisfied at `parent` when it is the same type, or an interface whose
runtime types include every runtime type of the parent (§4.2). -/
def triviallySatisfied (sch : Schema) (cond : Option TypeName)
    (parent : TypeName) : Bool :=
  match cond with
  | none => true
  | some c =>
      c == parent ||
        (sch.isInterfaceType c &&
          isSupersetOf (sch.possibleRuntimeTypes c) (sch.possibleRuntimeTypes parent))

/-- Modelled from the spec: two type positions are incompatible (a dead
branch) when their possible runtime types do not intersect. -/
def deadBranch (sch : Schema) (cond : Option TypeName) (parent : TypeName) : Bool :=
  match cond with
  | none => false
  | some c =>
      (sch.possibleRuntimeTypes c).all
        (fun t => !((sch.possibleRuntimeTypes parent).contains t))

mutual

/-- Modelled from the spec: `flatten_unnecessary_fragments` on one child at
the given parent type: dead inline branches are dropped; an inline fragment
whose condition is trivially satisfied and that carries no directives is
replaced by its (flattened) children, to be merged into the parent level;
kept fragment spreads are preserved; fields recurse into their
sub-selection. -/
def flattenSel (sch : Schema) (parent : TypeName) :
    Selection → List Selection
  | .field d none => [.field d none]
  | .field d (some (ty, sels)) => [.field d (some (ty, flattenList sch ty sels))]
  | .inlineFragment d ty sels =>
      if deadBranch sch d.typeCondition parent then []
      else if triviallySatisfied sch d.typeCondition parent && d.directives.isEmpty then
        flattenList sch parent sels
      else
        let inner := flattenList sch ty sels
        if inner.isEmpty then [] else [.inlineFragment d ty inner]
  | .fragmentSpread d ty sels => [.fragmentSpread d ty sels]

/-- Flatten every child of a list at the given parent type, merging the
results. -/
def flattenList (sch : Schema) (parent : TypeName) :
    List Selection → List Selection
  | [] => []
  | s :: rest => addAllLocal (flattenSel sch parent s) (flattenList sch parent rest)

end

/-- Modelled from the spec: `flatten_unnecessary_fragments(parent_type,
kept_fragments, schema)`.  Kept fragment spreads are always preserved by
`flattenSel`, so the kept-fragments argument of the Rust signature has no
further effect here. -/
def SelectionSet.flattenUnnecessaryFragments (s : SelectionSet) (sch : Schema)
    (parent : TypeName) : SelectionSet :=
  ⟨parent, flattenList sch parent s.selections⟩

/-! ## Usage counting (modelled from the spec, §4.2/§4.8) -/

/-- Add `c` to the counter of `name` in an insertion-ordered counter list. -/
def bumpCount (u : List (String × Nat)) (name : String) (c : Nat) :
    List (String × Nat) :=
  match u with
  | [] => [(name, c)]
  | (n, k) :: rest =>
      if n = name then (n, k + c) :: rest else (n, k) :: bumpCount rest name c

/-- Count lookup (0 when absent). -/
def getCount (u : List (String × Nat)) (name : String) : Nat :=
  match u.find? (fun p => p.1 == name) with
  | some (_, k) => k
  | none => 0

mutual

/-- Modelled from the spec: count direct fragment-spread references by name
in one selection (spread nodes do not recurse into their recorded bodies). -/
def Selection.collectUsages : Selection → List (String × Nat) → List (String × Nat)
  | .field _ none, u => u
  | .field _ (some (_, sels)), u => collectUsagesList sels u
  | .inlineFragment _ _ sels, u => collectUsagesList sels u
  | .fragmentSpread d _ _, u => bumpCount u d.fragmentName 1

/-- Count direct fragment-spread references in a child list. -/
def collectUsagesList : List Selection → List (String × Nat) → List (String × Nat)
  | [], u => u
  | s :: rest, u => collectUsagesList rest (s.collectUsages u)

end

/-- Modelled from the spec: `SelectionSet::used_fragments`. -/
def SelectionSet.usedFragments (s : SelectionSet) : List (String × Nat) :=
  collectUsagesList s.selections []

/-- Modelled from the spec: `Fragment::collect_used_fragment_names` adds the
fragment body's direct spread counts into the given counter. -/
def Fragment.collectUsedFragmentNames (f : Fragment)
    (u : List (String × Nat)) : List (String × Nat) :=
  collectUsagesList f.selectionSet.selections u

/-- Direct spread count of one name in a fragment body. -/
def Fragment.bodyCount (f : Fragment) (name : String) : Nat :=
  getCount (f.collectUsedFragmentNames []) name

/-! ## Used variables (modelled from the spec/`used_variables`) -/

/-- Variable references in an argument list (values written `$name`). -/
def argVariables (args : List (String × String)) : List String :=
  args.filterMap (fun p => if p.2.startsWith "$" then some (p.2.drop 1) else none)

/-- Variable references in a directive list. -/
def directiveVariables (ds : List Directive) : List String :=
  ds.flatMap (fun d => argVariables d.args)

mutual

/-- Modelled from the spec: collect the variables used by a selection
(argument values and directive arguments), recursively. -/
def Selection.usedVariables : Selection → List String
  | .field d none => argVariables d.args ++ directiveVariables d.directives
  | .field d (some (_, sels)) =>
      argVariables d.args ++ directiveVariables d.directives ++ usedVariablesList sels
  | .inlineFragment d _ sels => directiveVariables d.directives ++ usedVariablesList sels
  | .fragmentSpread d _ sels => directiveVariables d.directives ++ usedVariablesList sels

/-- Collect the variables used in a child list. -/
def usedVariablesList : List Selection → List String
  | [] => []
  | s :: rest => s.usedVariables ++ usedVariablesList rest

end

/-- Modelled from the spec: `Fragment::used_variables`. -/
def Fragment.usedVariables (f : Fragment) : List String :=
  directiveVariables f.directives ++ usedVariablesList f.selectionSet.selections

/-! ## Fields-merge validator (`optimize.rs` lines 392–618) -/

/-- `FieldsConflictValidator`: fields grouped first by response name, then by
field identity, each group carrying an optional validator for the union of
the group's sub-selection sets. -/
inductive Validator where
  | mk (byResponseName : List (String × List (FieldData × Option Validator)))

/-- Accessor for the grouping list. -/
def Validator.byrn : Validator → List (String × List (FieldData × Option Validator))
  | .mk l => l

/-- First-occurrence deduplication, matching `IndexMap` key order. -/
def dedupFirst {α : Type} [BEq α] (l : List α) : List α :=
  l.foldl (fun acc a => if acc.contains a then acc else acc ++ [a]) []

/-- The direct field children of a list of child lists, with their optional
sub-selection child list (`field_selections` of each level set, in order). -/
def levelFields (level : List (List Selection)) :
    List (FieldData × Option (List Selection)) :=
  level.flatMap (fun sels => sels.filterMap (fun s =>
    match s with
    | .field d none => some (d, none)
    | .field d (some (_, subs)) => some (d, some subs)
    | _ => none))

/-- `FieldsConflictValidator::for_level`: group the level's fields by
response name and then by field, and build the validator of each group's
collected sub-selection sets.  The grouping reshapes data non-structurally,
so the recursion runs on an explicit fuel bounded below by the selection
depth (ample at every call site; spec §5 bounds all recursion by tree
depth). -/
def forLevelFuel (sch : Schema) : Nat → List (List Selection) → Validator
  | 0, _ => .mk []
  | fuel + 1, level =>
      let fields := levelFields level
      let rns := dedupFirst (fields.map (fun p => p.1.responseName))
      .mk (rns.map (fun rn =>
        let fs := fields.filter (fun p => p.1.responseName == rn)
        let fds := dedupFirst (fs.map (fun p => p.1))
        (rn, fds.map (fun fd =>
          let sets := fs.filterMap (fun p => if p.1 == fd then p.2 else none)
          (fd, if sets.isEmpty then none else some (forLevelFuel sch fuel sets))))))

/-- `FieldsConflictValidator::from_selection_set`. -/
def FieldsConflictValidator.fromSelectionSet (sch : Schema) (s : SelectionSet) :
    Validator :=
  forLevelFuel sch (sizeList s.selections + 1) [s.selections]

/-- Lookup of a response-name group. -/
def lookupRn (v : Validator) (rn : String) :
    Option (List (FieldData × Option Validator)) :=
  match v.byrn.find? (fun p => p.1 == rn) with
  | some p => some p.2
  | none => none

/-- `FieldsConflictValidator::for_field`: all validators grouped under the
field's response name. -/
def Validator.forField (v : Validator) (f : FieldData) : List Validator :=
  match lookupRn v f.responseName with
  | none => []
  | some fields => fields.filterMap (fun p => p.2)

mutual

/-- Depth-aware size of a validator, used to pick sufficient fuel for the
check recursions. -/
def Validator.vsize : Validator → Nat
  | .mk byrn => 1 + vsizeOuter byrn

/-- Size of the outer grouping list. -/
def vsizeOuter : List (String × List (FieldData × Option Validator)) → Nat
  | [] => 0
  | (_, fs) :: rest => vsizeFields fs + vsizeOuter rest

/-- Size of one response-name group. -/
def vsizeFields : List (FieldData × Option Validator) → Nat
  | [] => 0
  | (_, none) :: rest => 1 + vsizeFields rest
  | (_, some v) :: rest => 1 + v.vsize + vsizeFields rest

end

/-- `FieldsConflictValidator::has_same_response_shape` (fuelled; the fuel is
bounded below by the validator depth at every call site). -/
def hasSameResponseShapeFuel (sch : Schema) : Nat → Validator → Validator → Bool
  | 0, _, _ => true
  | fuel + 1, self, other =>
      self.byrn.all (fun g =>
        match lookupRn other g.1 with
        | none => true
        | some otherFields =>
            g.2.all (fun sp =>
              otherFields.all (fun op =>
                sch.typesCanBeMerged sp.1.outputType op.1.outputType &&
                  (match sp.2, op.2 with
                   | some v1, some v2 => hasSameResponseShapeFuel sch fuel v1 v2
                   | _, _ => true))))

/-- `FieldsConflictValidator::do_merge_with` (fuelled): the
`FieldsInSetCanMerge` check between two groups of fields known to merge
individually. -/
def doMergeWithFuel (sch : Schema) : Nat → Validator → Validator → Bool
  | 0, _, _ => true
  | fuel + 1, self, other =>
      self.byrn.all (fun g =>
        match lookupRn other g.1 with
        | none => true
        | some otherFields =>
            g.2.all (fun sp =>
              otherFields.all (fun op =>
                sch.typesCanBeMerged sp.1.outputType op.1.outputType &&
                  (if sp.1.parentType == op.1.parentType ||
                      !(sch.isObjectType sp.1.parentType) ||
                      !(sch.isObjectType op.1.parentType) then
                     (sp.1.name == op.1.name && sp.1.args == op.1.args) &&
                       (match sp.2, op.2 with
                        | some v1, some v2 => doMergeWithFuel sch fuel v1 v2
                        | _, _ => true)
                   else
                     (match sp.2, op.2 with
                      | some v1, some v2 => hasSameResponseShapeFuel sch fuel v1 v2
                      | _, _ => true)))))

/-- `FieldsConflictValidator::do_merge_with` with depth-sufficient fuel. -/
def Validator.doMergeWith (sch : Schema) (self other : Validator) : Bool :=
  doMergeWithFuel sch (self.vsize + other.vsize + 1) self other

/-- `FieldsConflictValidator::do_merge_with_all`: every validator of the
iterator merges with `self`. -/
def doMergeWithAll (sch : Schema) (self : Validator) (others : List Validator) :
    Bool :=
  others.all (fun v => v.doMergeWith sch self)

/-- `FieldsConflictMultiBranchValidator`. -/
structure MultiBranchValidator where
  validators : List Validator
  usedSpreadTrimmedPartAtLevel : List Validator

/-- `FieldsConflictMultiBranchValidator::from_initial_validator`. -/
def MultiBranchValidator.fromInitialValidator (v : Validator) :
    MultiBranchValidator :=
  ⟨[v], []⟩

/-- `FieldsConflictMultiBranchValidator::for_field`: collect the nested
validators of the field across all branches. -/
def MultiBranchValidator.forField (m : MultiBranchValidator) (f : FieldData) :
    MultiBranchValidator :=
  ⟨m.validators.flatMap (fun v => v.forField f), []⟩

/-! ## Fragment restrictions and matching (`optimize.rs` lines 620–1017) -/

/-- `FragmentRestrictionAtType`: the fragment's selections expanded and
normalized at a type, plus the optional conflict validator. -/
structure FragmentRestrictionAtType where
  selections : SelectionSet
  validator : Option Validator

/-- `FieldsConflictMultiBranchValidator::check_can_reuse_fragment_and_track_it`:
the restriction's validator (when any) must merge with every branch validator
and with every already-accepted trimmed validator; on success it is
recorded. -/
def MultiBranchValidator.checkCanReuseFragmentAndTrackIt (sch : Schema)
    (m : MultiBranchValidator) (rest : FragmentRestrictionAtType) :
    Bool × MultiBranchValidator :=
  match rest.validator with
  | none => (true, m)
  | some v =>
      if !(doMergeWithAll sch v m.validators) then (false, m)
      else if !(doMergeWithAll sch v m.usedSpreadTrimmedPartAtLevel) then (false, m)
      else (true, { m with
        usedSpreadTrimmedPartAtLevel := m.usedSpreadTrimmedPartAtLevel ++ [v] })

/-- `Fragment::expanded_selection_set_at_type` (`optimize.rs` lines
692–735): expand the fragment body, flatten it at `ty`, and build the
validator — the full one for a non-object condition, otherwise one over the
trimmed part when it is non-empty. -/
def Fragment.expandedSelectionSetAtType (sch : Schema) (f : Fragment)
    (ty : TypeName) : FragmentRestrictionAtType :=
  let expandedSelectionSet := f.selectionSet.expandAllFragments
  let selectionSet := expandedSelectionSet.flattenUnnecessaryFragments sch ty
  if !(sch.isObjectType f.typeCondition) then
    ⟨selectionSet, some (FieldsConflictValidator.fromSelectionSet sch expandedSelectionSet)⟩
  else
    let trimmed := expandedSelectionSet.minus selectionSet
    ⟨selectionSet,
      if trimmed.isEmpty then none
      else some (FieldsConflictValidator.fromSelectionSet sch trimmed)⟩

/-- `FragmentRestrictionAtType::is_useless`: empty, or only a plain
`__typename`. -/
def FragmentRestrictionAtType.isUseless (r : FragmentRestrictionAtType) : Bool :=
  match r.selections.selections with
  | [] => true
  | first :: rest => rest.isEmpty && first.key.isPlainTypename

/-- `Fragment::includes`: whether `self`'s top level directly spreads the
other fragment (guaranteed `false` on its own name). -/
def Fragment.includes (f : Fragment) (other : String) : Bool :=
  if f.name = other then false
  else f.selectionSet.selections.any (fun s =>
    match s with
    | .fragmentSpread d _ _ => d.fragmentName == other
    | _ => false)

/-- `FullMatchingFragmentCondition`. -/
inductive FullMatchingFragmentCondition where
  | forFieldSelection
  | forInlineFragmentSelection (typeConditionPosition : TypeName)
      (directives : List Directive)

/-- `FullMatchingFragmentCondition::check`: a fragment may replace the whole
selection set by itself. -/
def FullMatchingFragmentCondition.check (c : FullMatchingFragmentCondition)
    (f : Fragment) : Bool :=
  match c with
  | .forFieldSelection => f.directives.isEmpty
  | .forInlineFragmentSelection tcp dirs =>
      if f.directives.isEmpty then true
      else f.typeCondition == tcp && f.directives.all (fun d1 => dirs.contains d1)

/-- `SelectionSet::reduce_applicable_fragments`: drop any fragment directly
included by another applicable fragment. -/
def reduceApplicableFragments
    (apps : List (Fragment × FragmentRestrictionAtType)) :
    List (Fragment × FragmentRestrictionAtType) :=
  let included : List String :=
    (apps.filter (fun p => apps.any (fun q => q.1.includes p.1.name))).map
      (fun p => p.1.name)
  apps.filter (fun p => !(included.contains p.1.name))

/-- The reuse context (`ReuseContext`): the catalog plus, for operations, the
declared variable names. -/
structure ReuseContext where
  fragments : NamedFragments
  operationVariables : Option (List String)

/-- `ReuseContext::for_fragments`. -/
def ReuseContext.forFragments (frags : NamedFragments) : ReuseContext :=
  ⟨frags, none⟩

/-- `ReuseContext::for_operation`. -/
def ReuseContext.forOperation (frags : NamedFragments) (vars : List String) :
    ReuseContext :=
  ⟨frags, some vars⟩

/-- Return type of `try_apply_fragments`. -/
inductive SelectionSetOrFragment where
  | selectionSet (s : SelectionSet)
  | fragment (f : Fragment)

/-- `FragmentSpreadSelection::from_fragment`: a spread of the fragment with
the given site directives, carrying the fragment's condition and body. -/
def mkSpreadFromFragment (f : Fragment) (dirs : List Directive) : Selection :=
  .fragmentSpread ⟨f.name, dirs⟩ f.typeCondition f.selectionSet.selections

/-- Result of the candidate loop of `try_apply_fragments`: either an early
full match, or the collected applicable fragments. -/
inductive TryApplyPhase1 where
  | fullMatch (f : Fragment) (v : MultiBranchValidator)
  | collected (apps : List (Fragment × FragmentRestrictionAtType))
      (v : MultiBranchValidator)

/-- Candidate loop of `try_apply_fragments` (`optimize.rs` lines 916–985):
skip useless restrictions and fragments using undeclared variables; a full
`Equal` match passing the validator returns immediately; `Equal` or
`StrictlyContained` candidates without directives are collected. -/
def collectApplicable (sch : Schema) (self : SelectionSet)
    (parentType : TypeName) (ctx : ReuseContext)
    (fullMatch : FullMatchingFragmentCondition) :
    MultiBranchValidator → List Fragment → TryApplyPhase1
  | v, [] => .collected [] v
  | v, candidate :: rest =>
      let atType := candidate.expandedSelectionSetAtType sch parentType
      if atType.isUseless then
        collectApplicable sch self parentType ctx fullMatch v rest
      else if (match ctx.operationVariables with
               | some vars => candidate.usedVariables.any (fun x => !(vars.contains x))
               | none => false) then
        collectApplicable sch self parentType ctx fullMatch v rest
      else
        match self.containment atType.selections ⟨true⟩ with
        | .equal =>
            if fullMatch.check candidate then
              match v.checkCanReuseFragmentAndTrackIt sch atType with
              | (true, v2) => .fullMatch candidate v2
              | (false, v2) => collectApplicable sch self parentType ctx fullMatch v2 rest
            else if candidate.directives.isEmpty then
              match collectApplicable sch self parentType ctx fullMatch v rest with
              | .fullMatch f v2 => .fullMatch f v2
              | .collected apps v2 => .collected ((candidate, atType) :: apps) v2
            else collectApplicable sch self parentType ctx fullMatch v rest
        | .strictlyContained =>
            if candidate.directives.isEmpty then
              match collectApplicable sch self parentType ctx fullMatch v rest with
              | .fullMatch f v2 => .fullMatch f v2
              | .collected apps v2 => .collected ((candidate, atType) :: apps) v2
            else collectApplicable sch self parentType ctx fullMatch v rest
        | .notContained => collectApplicable sch self parentType ctx fullMatch v rest

/-- Build loop of `try_apply_fragments` (`optimize.rs` lines 996–1016): for
each applicable fragment passing the validator, append its spread to the
optimized list and narrow the uncovered remainder. -/
def buildOptimizedLoop (sch : Schema) (self : SelectionSet) :
    MultiBranchValidator → SelectionSet → List Selection →
      List (Fragment × FragmentRestrictionAtType) →
      List Selection × SelectionSet × MultiBranchValidator
  | v, notCov, optimized, [] => (optimized, notCov, v)
  | v, notCov, optimized, (f, atType) :: rest =>
      match v.checkCanReuseFragmentAndTrackIt sch atType with
      | (false, v2) => buildOptimizedLoop sch self v2 notCov optimized rest
      | (true, v2) =>
          let notCovered := self.minus atType.selections
          buildOptimizedLoop sch self v2 (notCov.intersection notCovered)
            (addOneLocal optimized (mkSpreadFromFragment f [])) rest

/-- `SelectionSet::try_apply_fragments` (`optimize.rs` lines 892–1017). -/
def SelectionSet.tryApplyFragments (self : SelectionSet) (sch : Schema)
    (parentType : TypeName) (ctx : ReuseContext) (v : MultiBranchValidator)
    (fullMatch : FullMatchingFragmentCondition) :
    SelectionSetOrFragment × MultiBranchValidator :=
  let candidates := getAllMayApplyDirectlyAtType sch ctx.fragments parentType
  match collectApplicable sch self parentType ctx fullMatch v candidates with
  | .fullMatch f v2 => (.fragment f, v2)
  | .collected apps v2 =>
      if apps.isEmpty then (.selectionSet self, v2)
      else
        let apps2 := reduceApplicableFragments apps
        let (optimized, notCov, v3) := buildOptimizedLoop sch self v2 self [] apps2
        (.selectionSet ⟨self.typePosition, addAllLocal optimized notCov.selections⟩, v3)

/-! ## Retaining fragments (`optimize.rs` lines 1027–1097) -/

mutual

/-- `Selection::retain_fragments`: keep spreads of kept fragments; expand the
others into their (recursively retained) body — spliced directly when the
spread is directive-free and conditioned on the parent type, wrapped in an
inline fragment otherwise.  Fields and inline fragments recurse into their
sub-selections.  Returns the list of selections the input turns into. -/
def retainSel (keep : NamedFragments) (parentType : TypeName) :
    Selection → List Selection
  | .field d none => [.field d none]
  | .field d (some (ty, sels)) =>
      [.field d (some (ty, addAllLocal [] (retainList keep ty sels)))]
  | .inlineFragment d sty sels =>
      [.inlineFragment d sty (addAllLocal [] (retainList keep sty sels))]
  | .fragmentSpread d subTy subSels =>
      if keep.any (fun f => f.name == d.fragmentName) then
        [.fragmentSpread d subTy subSels]
      else
        let expanded := addAllLocal [] (retainList keep subTy subSels)
        if parentType == subTy && d.directives.isEmpty then expanded
        else [.inlineFragment ⟨some subTy, d.directives⟩ subTy expanded]

/-- `SelectionSet::retain_fragments` on a child list (without the final
re-merge, applied by the caller). -/
def retainList (keep : NamedFragments) (ty : TypeName) :
    List Selection → List Selection
  | [] => []
  | s :: rest => retainSel keep ty s ++ retainList keep ty rest

end

/-- `SelectionSet::retain_fragments`: map every selection and merge the
spliced results back into a selection map. -/
def SelectionSet.retainFragments (ss : SelectionSet) (keep : NamedFragments) :
    SelectionSet :=
  ⟨ss.typePosition, addAllLocal [] (retainList keep ss.typePosition ss.selections)⟩

/-! ## Reducing the catalog (`optimize.rs` lines 1132–1266) -/

/-- `NamedFragments::update_usages`: add the fragment body's direct spread
counts, multiplied by the fragment's own usage count, into the counter. -/
def updateUsages (usages : List (String × Nat)) (f : Fragment)
    (usageCount : Nat) : List (String × Nat) :=
  (f.collectUsedFragmentNames []).foldl
    (fun u p => bumpCount u p.1 (p.2 * usageCount)) usages

/-- One step of the reverse counting pass of `reduce_inner`: a fragment
whose running count reaches `m` contributes its body counts once; otherwise
its body counts are added scaled by its own running count. -/
def countStep (m : Nat) (u : List (String × Nat)) (f : Fragment) :
    List (String × Nat) :=
  let c := getCount u f.name
  if m ≤ c then f.collectUsedFragmentNames u
  else updateUsages u f c

/-- The reverse-dependency-order counting pass of `reduce_inner`
(`optimize.rs` lines 1195–1205): visiting the catalog from last to first, a
fragment kept (count ≥ `m`) contributes its body's direct usages; a dropped
one contributes them multiplied by its own count. -/
def countPass (m : Nat) (cat : NamedFragments)
    (usages : List (String × Nat)) : List (String × Nat) :=
  cat.reverse.foldl
    (fun u f =>
      let c := getCount u f.name
      if m ≤ c then f.collectUsedFragmentNames u
      else updateUsages u f c) usages

/-- `NamedFragments::reduce_inner`: count usages (drop everything when zero
used), retain the fragments used at least `m` times (with the no-drop
short-circuit), rewrite the kept fragment bodies and the selection set
through `retain_fragments`, and flatten the result. -/
def reduceInner (cat : NamedFragments) (ss : SelectionSet) (m : Nat)
    (sch : Schema) : NamedFragments × SelectionSet :=
  let usages := ss.usedFragments
  if usages.isEmpty then ([], ss)
  else
    let finalUsages := countPass m cat usages
    let kept := cat.filter (fun f => m ≤ getCount finalUsages f.name)
    if kept.length == cat.length then (cat, ss)
    else
      let updatedKept := kept.map (fun f =>
        let newBody :=
          (f.selectionSet.retainFragments kept).flattenUnnecessaryFragments
            sch f.selectionSet.typePosition
        { f with selectionSet := newBody })
      let reduced := ss.retainFragments updatedKept
      (updatedKept,
        reduced.flattenUnnecessaryFragments sch reduced.typePosition)

/-- The fix-point loop of `NamedFragments::reduce`: rerun `reduce_inner`
until the catalog size stabilizes (keeping the previous selection set on the
stabilizing run, as the code does).  Every continuing iteration strictly
shrinks the catalog, so `cat.length + 1` fuel always suffices. -/
def reduceLoop (sch : Schema) (m : Nat) :
    Nat → NamedFragments → SelectionSet → NamedFragments × SelectionSet
  | 0, cat, ss => (cat, ss)
  | fuel + 1, cat, ss =>
      if cat.length == 0 then (cat, ss)
      else
        let (cat2, ss2) := reduceInner cat ss m sch
        if cat2.length == cat.length then (cat2, ss)
        else reduceLoop sch m fuel cat2 ss2

/-- `NamedFragments::reduce`.  Returns the reduced catalog and the rewritten
selection set. -/
def NamedFragments.reduce (cat : NamedFragments) (ss : SelectionSet) (m : Nat)
    (sch : Schema) : NamedFragments × SelectionSet :=
  reduceLoop sch m (cat.length + 1) cat ss

/-! ## The reuse pass (`optimize.rs` lines 1272–1554) -/

mutual

/-- `SelectionSet::contains_fragment_spread` on one selection. -/
def Selection.containsSpread : Selection → Bool
  | .field _ none => false
  | .field _ (some (_, sels)) => containsSpreadList sels
  | .inlineFragment _ _ sels => containsSpreadList sels
  | .fragmentSpread _ _ _ => true

/-- Spread search over a child list. -/
def containsSpreadList : List Selection → Bool
  | [] => false
  | s :: rest => s.containsSpread || containsSpreadList rest

end

/-- `SelectionSet::contains_fragment_spread`. -/
def SelectionSet.containsFragmentSpread (s : SelectionSet) : Bool :=
  containsSpreadList s.selections

mutual

/-- `Selection::reuse_fragments_inner`: dispatch on the selection kind;
fragment spreads are left untouched.  The recursion re-enters the optimized
selection set produced by `try_apply_fragments`, which is not a structural
subterm, so the whole family runs on an explicit fuel that every call
strictly decreases; the exhaustion branches are unreachable for the fuel
chosen by the wrappers (spec §5 bounds the recursion by selection depth). -/
def reuseSelFuel (sch : Schema) (ctx : ReuseContext) :
    Nat → Selection → MultiBranchValidator → Selection × MultiBranchValidator
  | 0, s, v => (s, v)
  | fuel + 1, s, v =>
      match s with
      | .field d sub => reuseFieldFuel sch ctx fuel d sub v
      | .fragmentSpread d ty sels => (.fragmentSpread d ty sels, v)
      | .inlineFragment d ty sels => reuseInlineFuel sch ctx fuel d ty sels v

/-- `FieldSelection::reuse_fragments_inner` (`optimize.rs` lines 1292–1333):
leaf fields (no composite base type or no sub-selection) are unchanged;
otherwise try to apply fragments to the sub-selection under a derived field
validator (whose mutations stay local) and recurse into the result. -/
def reuseFieldFuel (sch : Schema) (ctx : ReuseContext) :
    Nat → FieldData → Option (TypeName × List Selection) →
      MultiBranchValidator → Selection × MultiBranchValidator
  | 0, d, sub, v => (.field d sub, v)
  | _ + 1, d, none, v => (.field d none, v)
  | fuel + 1, d, some (ty, sels), v =>
      match d.outputBaseType with
      | none => (.field d (some (ty, sels)), v)
      | some _ =>
          let fieldValidator := v.forField d
          match SelectionSet.tryApplyFragments ⟨ty, sels⟩ sch ty ctx
              fieldValidator .forFieldSelection with
          | (opt, fv2) =>
              let optimized : SelectionSet :=
                match opt with
                | .fragment frag => ⟨ty, [mkSpreadFromFragment frag []]⟩
                | .selectionSet s => s
              match reuseListFuel sch ctx fuel optimized.selections fv2 with
              | (optSels, _) => (.field d (some (optimized.typePosition, optSels)), v)

/-- `InlineFragmentSelection::reuse_fragments_inner` (`optimize.rs` lines
1353–1430): with a type condition, try to apply fragments at it — a full
match on the same condition replaces the whole inline by the spread (keeping
the extra directives); a full match on another condition becomes a
sub-selection holding just the spread; otherwise the optimized sub-selection
is kept — then recurse into the chosen sub-selection. -/
def reuseInlineFuel (sch : Schema) (ctx : ReuseContext) :
    Nat → InlineFragData → TypeName → List Selection →
      MultiBranchValidator → Selection × MultiBranchValidator
  | 0, d, ty, sels, v => (.inlineFragment d ty sels, v)
  | fuel + 1, d, ty, sels, v =>
      match d.typeCondition with
      | none =>
          match reuseListFuel sch ctx fuel sels v with
          | (optSels, v2) => (.inlineFragment d ty optSels, v2)
      | some tcp =>
          match SelectionSet.tryApplyFragments ⟨ty, sels⟩ sch tcp ctx v
              (.forInlineFragmentSelection tcp d.directives) with
          | (.fragment frag, v2) =>
              if tcp == frag.typeCondition then
                let dirs := d.directives.filter
                  (fun d1 => !(frag.directives.contains d1))
                (mkSpreadFromFragment frag dirs, v2)
              else
                match reuseListFuel sch ctx fuel [mkSpreadFromFragment frag []] v2 with
                | (optSels, v3) => (.inlineFragment d tcp optSels, v3)
          | (.selectionSet optimized, v2) =>
              match reuseListFuel sch ctx fuel optimized.selections v2 with
              | (optSels, v3) => (.inlineFragment d optimized.typePosition optSels, v3)

/-- `SelectionSet::reuse_fragments_inner` on a child list: optimize each
selection in order, threading the validator, and merge the results back into
a selection map. -/
def reuseListFuel (sch : Schema) (ctx : ReuseContext) :
    Nat → List Selection → MultiBranchValidator →
      List Selection × MultiBranchValidator
  | 0, sels, v => (sels, v)
  | _ + 1, [], v => ([], v)
  | fuel + 1, s :: rest, v =>
      match reuseSelFuel sch ctx fuel s v with
      | (s2, v2) =>
          match reuseListFuel sch ctx fuel rest v2 with
          | (rest2, v3) => (addAllLocal [s2] rest2, v3)

end

/-- Fuel sufficient for the reuse recursion on the given children (quadratic
in the node count, far above the depth actually consumed). -/
def reuseFuel (sels : List Selection) : Nat :=
  (sizeList sels + 2) * (sizeList sels + 2)

/-- Optimizer errors (`FederationError` restricted to what this pass
raises). -/
inductive FedError where
  | internal (msg : String)
  deriving Repr, DecidableEq

/-- `SelectionSet::reuse_fragments` (`optimize.rs` lines 1456–1506): no-op on
an empty catalog; error when the set already holds a spread; otherwise wrap
the set in a trivial inline fragment of its own type, run the reuse pass on
the wrapper under a fresh validator, and unwrap — a full-match spread becomes
a singleton set, otherwise the wrapper's optimized sub-selections are the
result. -/
def SelectionSet.reuseFragments (self : SelectionSet) (sch : Schema)
    (ctx : ReuseContext) : Except FedError SelectionSet :=
  if ctx.fragments.isEmpty then .ok self
  else if self.containsFragmentSpread then
    .error (.internal "reuse_fragments() must only be used on selection sets that do not contain named fragment spreads")
  else
    let wrapped : Selection :=
      .inlineFragment ⟨some self.typePosition, []⟩ self.typePosition self.selections
    let v := MultiBranchValidator.fromInitialValidator
      (FieldsConflictValidator.fromSelectionSet sch self)
    match reuseSelFuel sch ctx (reuseFuel [wrapped]) wrapped v with
    | (.fragmentSpread d subTy subSels, _) =>
        .ok ⟨self.typePosition, [.fragmentSpread d subTy subSels]⟩
    | (.inlineFragment _ ty sels, _) => .ok ⟨ty, sels⟩
    | (.field _ _, _) => .ok self

/-- An operation: its declared variable names, selection set, and named
fragments. -/
structure Operation where
  opVariables : List String
  selectionSet : SelectionSet
  namedFragments : NamedFragments

/-- `Operation::reuse_fragments_inner` (`optimize.rs` lines 1516–1544): no-op
on an empty catalog; otherwise optimize the selection set, stop if it did not
change (order-independent selection-map equality), and otherwise reduce the
catalog and install the results. -/
def Operation.reuseFragmentsInner (op : Operation) (sch : Schema)
    (fragments : NamedFragments) (m : Nat) : Except FedError Operation :=
  if fragments.isEmpty then .ok op
  else
    match op.selectionSet.reuseFragments sch
        (ReuseContext.forOperation fragments op.opVariables) with
    | .error e => .error e
    | .ok newSS =>
        if SelectionSet.eqv op.selectionSet newSS then
          .ok { op with selectionSet := newSS }
        else
          let (finalFrags, finalSS) := NamedFragments.reduce fragments newSS m sch
          .ok { op with selectionSet := finalSS, namedFragments := finalFrags }

/-- `Operation::DEFAULT_MIN_USAGES_TO_OPTIMIZE`. -/
def DEFAULT_MIN_USAGES_TO_OPTIMIZE : Nat := 2

/-- `Operation::reuse_fragments`. -/
def Operation.reuseFragments (op : Operation) (sch : Schema)
    (fragments : NamedFragments) : Except FedError Operation :=
  op.reuseFragmentsInner sch fragments DEFAULT_MIN_USAGES_TO_OPTIMIZE

/-! ## Concrete inputs for the end-to-end claims -/

/-- A schema with two object types: `Query` with composite-typed fields `t`
and `t2` of type `T`, and `T` with leaf fields `id` and `a`. -/
def schemaQ : Schema where
  isObjectType := fun t => t == "Query" || t == "T"
  isInterfaceType := fun _ => false
  isUnionType := fun _ => false
  possibleRuntimeTypes := fun t => [t]
  typesCanBeMerged := fun _ _ => true

/-- Leaf field `id` of `T`. -/
def fId : Selection := .field ⟨"T", "id", none, [], [], none, none, "ID"⟩ none

/-- Leaf field `a` of `T`. -/
def fA : Selection := .field ⟨"T", "a", none, [], [], none, none, "Int"⟩ none

/-- Field `t { id a }` of `Query`. -/
def fT : Selection :=
  .field ⟨"Query", "t", none, [], [], none, some "T", "T"⟩ (some ("T", [fId, fA]))

/-- Field `t2 { id a }` of `Query`. -/
def fT2 : Selection :=
  .field ⟨"Query", "t2", none, [], [], none, some "T", "T"⟩ (some ("T", [fId, fA]))

/-- `fragment TFrag on T { id a }`. -/
def tFrag : Fragment := ⟨"TFrag", "T", [], ⟨"T", [fId, fA]⟩⟩

/-- The operation `query { t { id a } t2 { id a } }` with no declared
variables and no attached fragments. -/
def opC4 : Operation := ⟨[], ⟨"Query", [fT, fT2]⟩, []⟩

/-- The operation `opC4` rewritten once by `reuse_fragments` with the
catalog `[TFrag]` (the engine rewrites both sub-selections to
`{ ...TFrag }`). -/
def op2C4 : Operation :=
  match Operation.reuseFragments opC4 schemaQ [tFrag] with
  | .ok o => o
  | .error _ => opC4

/-- A selection set containing a fragment spread (`{ ...TFrag }` on `T`). -/
def ssSpread : SelectionSet :=
  ⟨"T", [.fragmentSpread ⟨"TFrag", []⟩ "T" [fId, fA]]⟩

/-- Whether an `Except` value is a success. -/
def exceptOk {α : Type} : Except FedError α → Bool
  | .ok _ => true
  | .error _ => false

/-- Leaf field `b` of `T`. -/
def fB2 : Selection := .field ⟨"T", "b", none, [], [], none, none, "Int"⟩ none

/-- The selection set `{ id a b }` on `T` (a strict superset of `TFrag`'s
body). -/
def c9SelfSet : SelectionSet := ⟨"T", [fId, fA, fB2]⟩

/-- Reuse context holding just `TFrag`. -/
def c9Ctx : ReuseContext := ReuseContext.forFragments [tFrag]

/-- Fresh validator for `c9SelfSet`. -/
def c9V : MultiBranchValidator :=
  .fromInitialValidator (FieldsConflictValidator.fromSelectionSet schemaQ c9SelfSet)

/-- `try_apply_fragments` on `{ id a b }` at `T` with catalog `[TFrag]`. -/
def c9Result : SelectionSetOrFragment × MultiBranchValidator :=
  SelectionSet.tryApplyFragments c9SelfSet schemaQ "T" c9Ctx c9V .forFieldSelection

/-- Whether a `try_apply_fragments` result is a rewritten selection set. -/
def resultIsSelSet : SelectionSetOrFragment × MultiBranchValidator → Bool
  | (.selectionSet _, _) => true
  | _ => false

/-- The selection set produced by `c9Result`. -/
def c9Out : SelectionSet :=
  match c9Result with
  | (.selectionSet s, _) => s
  | _ => c9SelfSet

/-- The validator produced by `c9Result`. -/
def c9V2 : MultiBranchValidator := c9Result.2

/-! ## Dependency-order bookkeeping for the catalog (C8) -/

/-- `beforeIn A m n`: `m` occurs strictly before any occurrence of `n` in
`A`. -/
def beforeIn : List String → String → String → Bool
  | [], _, _ => false
  | a :: rest, m, n => if a == n then false else a == m || beforeIn rest m n

mutual

/-- Every fragment spread in the tree — recorded spread bodies included —
names a fragment accepted by `P`. -/
def spreadsOkSel (P : String → Bool) : Selection → Bool
  | .field _ none => true
  | .field _ (some (_, sels)) => spreadsOkList P sels
  | .inlineFragment _ _ sels => spreadsOkList P sels
  | .fragmentSpread d _ sels => P d.fragmentName && spreadsOkList P sels

/-- `spreadsOkSel` over a child list. -/
def spreadsOkList (P : String → Bool) : List Selection → Bool
  | [] => true
  | s :: rest => spreadsOkSel P s && spreadsOkList P rest

end

/-- A fragment respects the dependency order recorded by the name list `A`:
every spread in its body (recorded bodies included) names a fragment
strictly before its own name in `A`. -/
def fragOk (A : List String) (f : Fragment) : Bool :=
  spreadsOkList (fun n => beforeIn A n f.name) f.selectionSet.selections

/-- Total direct spread count of `x` over the bodies of a fragment list. -/
def listBodySum : List Fragment → String → Nat
  | [], _ => 0
  | g :: rest, x => g.bodyCount x + listBodySum rest x

/-- Sum of the counter entries recorded for `x` (counter lists built by
`bumpCount` hold at most one entry per name, making this the same as
`getCount`). -/
def pairSum : List (String × Nat) → String → Nat
  | [], _ => 0
  | (n, k) :: rest, x => (if n = x then k else 0) + pairSum rest x

/-! ## Lemmas about the set algebra -/

theorem listMinus_nil (other : List Selection) : listMinus [] other = [] := by
  simp [listMinus]

theorem listMinus_cons (s : Selection) (rest other : List Selection) :
    listMinus (s :: rest) other =
      (match listGet other s.key with
       | some ov => (Selection.minus s ov).toList
       | none => [s]) ++ listMinus rest other := by
  rw [listMinus]

theorem listIntersection_nil (other : List Selection) :
    listIntersection [] other = [] := by
  simp [listIntersection]

theorem listIntersection_cons (s : Selection) (rest other : List Selection) :
    listIntersection (s :: rest) other =
      (match listGet other s.key with
       | some ov => (Selection.intersection s ov).toList
       | none => []) ++ listIntersection rest other := by
  rw [listIntersection]

/-- The selection-level difference preserves the selection key. -/
theorem Selection.minus_key {s o r : Selection} (h : Selection.minus s o = some r) :
    r.key = s.key := by
  unfold Selection.minus at h
  cases s with
  | field d sub =>
    cases sub with
    | none => simp at h
    | some p =>
      obtain ⟨ty, ss⟩ := p
      cases ho : o.selectionSet <;> rw [ho] at h <;> simp at h
      rw [← h.2]; rfl
  | inlineFragment d ty ss =>
    cases ho : o.selectionSet <;> rw [ho] at h <;> simp at h
    rw [← h.2]; rfl
  | fragmentSpread d ty ss =>
    cases ho : o.selectionSet <;> rw [ho] at h <;> simp at h
    rw [← h.2]; rfl

/-- The selection-level intersection preserves the selection key. -/
theorem Selection.intersection_key {s o r : Selection}
    (h : Selection.intersection s o = some r) : r.key = s.key := by
  unfold Selection.intersection at h
  cases s with
  | field d sub =>
    cases sub with
    | none => simp at h; rw [← h]
    | some p =>
      obtain ⟨ty, ss⟩ := p
      cases ho : o.selectionSet <;> rw [ho] at h <;> simp at h
      · rw [← h]
      · rw [← h.2]; rfl
  | inlineFragment d ty ss =>
    cases ho : o.selectionSet <;> rw [ho] at h <;> simp at h
    · rw [← h]
    · rw [← h.2]; rfl
  | fragmentSpread d ty ss =>
    cases ho : o.selectionSet <;> rw [ho] at h <;> simp at h
    · rw [← h]
    · rw [← h.2]; rfl

/-- Lookup distributes over list append. -/
theorem listGet_append (l1 l2 : List Selection) (k : SelectionKey) :
    listGet (l1 ++ l2) k = (listGet l1 k).or (listGet l2 k) := by
  simp [listGet, List.find?_append]

/-- Lookup on a cons cell. -/
theorem listGet_cons (s : Selection) (rest : List Selection) (k : SelectionKey) :
    listGet (s :: rest) k = if s.key = k then some s else listGet rest k := by
  simp only [listGet, List.find?_cons]
  split <;> split <;> simp_all

theorem listGet_nil (k : SelectionKey) : listGet [] k = none := rfl

/-- Keys of the child-list difference form a sublist of the keys of `self`:
the difference keeps the relative order of `self`'s children. -/
theorem keysOf_listMinus_sublist (self other : List Selection) :
    (keysOf (listMinus self other)).Sublist (keysOf self) := by
  induction self with
  | nil => simp [listMinus_nil, keysOf]
  | cons s rest ih =>
    rw [listMinus_cons]
    simp only [keysOf, List.map_append, List.map_cons] at *
    cases hg : listGet other s.key with
    | none => simpa using List.Sublist.cons₂ s.key ih
    | some ov =>
      dsimp only
      cases hm : Selection.minus s ov with
      | none => simpa using List.Sublist.cons s.key ih
      | some r =>
        simp only [Option.toList_some, List.map_cons, List.map_nil,
          List.singleton_append, Selection.minus_key hm]
        exact List.Sublist.cons₂ s.key ih

/-- Keys of the child-list intersection form a sublist of the keys of
`self`. -/
theorem keysOf_listIntersection_sublist (self other : List Selection) :
    (keysOf (listIntersection self other)).Sublist (keysOf self) := by
  induction self with
  | nil => simp [listIntersection_nil, keysOf]
  | cons s rest ih =>
    rw [listIntersection_cons]
    simp only [keysOf, List.map_append, List.map_cons] at *
    cases hg : listGet other s.key with
    | none => simpa using List.Sublist.cons s.key ih
    | some ov =>
      dsimp only
      cases hm : Selection.intersection s ov with
      | none => simpa using List.Sublist.cons s.key ih
      | some r =>
        simp only [Option.toList_some, List.map_cons, List.map_nil,
          List.singleton_append, Selection.intersection_key hm]
        exact List.Sublist.cons₂ s.key ih

/-- Lookup misses on a list when the key is absent from its key list. -/
theorem listGet_eq_none_of_not_mem {l : List Selection} {k : SelectionKey}
    (h : k ∉ keysOf l) : listGet l k = none := by
  rw [listGet, List.find?_eq_none]
  intro x hx
  simp only [decide_eq_true_eq]
  intro hk
  exact h (hk ▸ List.mem_map_of_mem Selection.key hx)

/-- A child of `self` whose key is absent from `other` is looked up unchanged
in the difference. -/
theorem listMinus_get_of_none (self other : List Selection) (k : SelectionKey)
    (hk : listGet other k = none) :
    listGet (listMinus self other) k = listGet self k := by
  induction self with
  | nil => simp [listMinus_nil]
  | cons s rest ih =>
    rw [listMinus_cons, listGet_append, listGet_cons]
    by_cases hsk : s.key = k
    · have hg : listGet other s.key = none := hsk ▸ hk
      rw [hg]
      simp [listGet_cons, hsk]
    · cases hg : listGet other s.key with
      | none => simp [listGet_cons, listGet_nil, hsk, ih]
      | some ov =>
        dsimp only
        cases hm : Selection.minus s ov with
        | none => simp [listGet_nil, hsk, ih]
        | some r =>
          have hrk : r.key = s.key := Selection.minus_key hm
          simp [listGet_cons, listGet_nil, hrk, hsk, ih]

/-- At a key present on both sides, the difference holds exactly the
selection-level difference of the two children. -/
theorem listMinus_get_of_both {self other : List Selection} {k : SelectionKey}
    (hnd : (keysOf self).Nodup) {s t : Selection}
    (hs : listGet self k = some s) (ht : listGet other k = some t) :
    listGet (listMinus self other) k = Selection.minus s t := by
  induction self with
  | nil => simp [listGet] at hs
  | cons a rest ih =>
    rw [listGet_cons] at hs
    rw [listMinus_cons, listGet_append]
    have hnd2 : a.key ∉ keysOf rest ∧ (keysOf rest).Nodup := by
      simpa [keysOf] using hnd
    by_cases hak : a.key = k
    · rw [if_pos hak] at hs
      injection hs with h1
      subst h1
      rw [hak, ht]
      dsimp only
      cases hm : Selection.minus a t with
      | some r =>
        simp [listGet_cons, listGet_nil, Selection.minus_key hm, hak, hm]
      | none =>
        have hknotin : k ∉ keysOf (listMinus rest other) := fun hmem =>
          (hak ▸ hnd2.1) ((keysOf_listMinus_sublist rest other).mem hmem)
        simp [listGet_nil, listGet_eq_none_of_not_mem hknotin]
    · rw [if_neg hak] at hs
      cases hg : listGet other a.key with
      | none => simp [listGet_cons, listGet_nil, hak, ih hnd2.2 hs]
      | some ov =>
        dsimp only
        cases hm : Selection.minus a ov with
        | none => simp [listGet_nil, ih hnd2.2 hs]
        | some r =>
          have hrk : r.key = a.key := Selection.minus_key hm
          simp [listGet_cons, listGet_nil, hrk, hak, ih hnd2.2 hs]

/-- The child-list intersection distributes over append on the left. -/
theorem listIntersection_append (l1 l2 other : List Selection) :
    listIntersection (l1 ++ l2) other =
      listIntersection l1 other ++ listIntersection l2 other := by
  induction l1 with
  | nil => simp [listIntersection_nil]
  | cons s rest ih =>
    rw [List.cons_append, listIntersection_cons, listIntersection_cons, ih,
      List.append_assoc]

/-- `Selection::minus`, re-expressed through `Selection.selectionSet` (the
form used by the Rust code). -/
theorem Selection.minus_eq (s o : Selection) :
    Selection.minus s o =
      (match s.selectionSet, o.selectionSet with
       | some ss, some os =>
           let diff := listMinus ss.selections os.selections
           if diff.isEmpty then none
           else some (s.withUpdatedSelections ss.typePosition diff)
       | _, _ => none) := by
  unfold Selection.minus
  cases s with
  | field d sub =>
    cases sub with
    | none => cases o <;> rfl
    | some p =>
      obtain ⟨ty, ss⟩ := p
      cases ho : o.selectionSet <;> rfl
  | inlineFragment d ty ss => cases ho : o.selectionSet <;> rfl
  | fragmentSpread d ty ss => cases ho : o.selectionSet <;> rfl

/-- `Selection::intersection`, re-expressed through
`Selection.selectionSet`. -/
theorem Selection.intersection_eq (s o : Selection) :
    Selection.intersection s o =
      (match s.selectionSet, o.selectionSet with
       | some ss, some os =>
           let common := listIntersection ss.selections os.selections
           if common.isEmpty then none
           else some (s.withUpdatedSelections ss.typePosition common)
       | _, _ => some s) := by
  unfold Selection.intersection
  cases s with
  | field d sub =>
    cases sub with
    | none => cases o <;> rfl
    | some p =>
      obtain ⟨ty, ss⟩ := p
      cases ho : o.selectionSet <;> rfl
  | inlineFragment d ty ss => cases ho : o.selectionSet <;> rfl
  | fragmentSpread d ty ss => cases ho : o.selectionSet <;> rfl

/-- Size-bounded version of the first algebraic law (§8.5):
`(self − other) ∩ other = ∅` on child lists. -/
theorem listIntersection_listMinus_empty_bounded :
    ∀ (n : Nat) (self other : List Selection), sizeOf self ≤ n →
      listIntersection (listMinus self other) other = [] := by
  intro n
  induction n with
  | zero =>
    intro self other hle
    cases self with
    | nil => rw [listMinus_nil, listIntersection_nil]
    | cons s rest => simp at hle
  | succ n ih =>
    intro self other hle
    cases self with
    | nil => rw [listMinus_nil, listIntersection_nil]
    | cons s rest =>
      have hrest : sizeOf rest ≤ n := by
        have := hle
        simp at this
        omega
      rw [listMinus_cons, listIntersection_append,
        ih rest other hrest, List.append_nil]
      cases hg : listGet other s.key with
      | none => simp [listIntersection_cons, hg, listIntersection_nil]
      | some ov =>
        dsimp only
        cases hm : Selection.minus s ov with
        | none => simp [listIntersection_nil]
        | some r =>
          rw [Option.toList_some, listIntersection_cons, Selection.minus_key hm, hg,
            listIntersection_nil, List.append_nil]
          dsimp only
          rw [Selection.minus_eq] at hm
          cases hss : s.selectionSet with
          | none => rw [hss] at hm; simp at hm
          | some ss =>
            cases ho : ov.selectionSet with
            | none => rw [hss, ho] at hm; simp at hm
            | some osub =>
              rw [hss, ho] at hm
              simp only [Option.some.injEq] at hm
              split at hm
              · exact absurd hm (by simp)
              · have hr : r = s.withUpdatedSelections ss.typePosition
                    (listMinus ss.selections osub.selections) := by
                  injection hm with h1
                  exact h1.symm
                have hsub : sizeOf ss.selections ≤ n := by
                  have h1 : sizeOf ss ≤ sizeOf s := by
                    obtain ⟨sty, ssels⟩ := ss
                    cases s with
                    | field d sub =>
                      cases sub with
                      | none => simp [Selection.selectionSet] at hss
                      | some p =>
                        obtain ⟨ty2, ss2⟩ := p
                        simp [Selection.selectionSet] at hss
                        obtain ⟨h4, h5⟩ := hss
                        subst_vars
                        simp
                        try omega
                    | inlineFragment d ty2 ss2 =>
                      simp [Selection.selectionSet] at hss
                      obtain ⟨h4, h5⟩ := hss
                      subst_vars
                      simp
                      try omega
                    | fragmentSpread d ty2 ss2 =>
                      simp [Selection.selectionSet] at hss
                      obtain ⟨h4, h5⟩ := hss
                      subst_vars
                      simp
                      try omega
                  have h2 : sizeOf ss.selections < sizeOf ss := by
                    cases ss
                    simp
                    try omega
                  have h3 : 1 + sizeOf s + sizeOf rest = sizeOf (s :: rest) := by
                    simp
                    try omega
                  omega
                rw [hr, Selection.intersection_eq]
                have hrsub : (s.withUpdatedSelections ss.typePosition
                    (listMinus ss.selections osub.selections)).selectionSet =
                      some ⟨ss.typePosition, listMinus ss.selections osub.selections⟩ := by
                  cases s <;> simp [Selection.withUpdatedSelections, Selection.selectionSet]
                rw [hrsub, ho]
                simp only
                rw [ih ss.selections osub.selections hsub]
                rfl

/-- First algebraic law of the spec (§8.5), on child lists. -/
theorem listIntersection_listMinus_empty (self other : List Selection) :
    listIntersection (listMinus self other) other = [] :=
  listIntersection_listMinus_empty_bounded (sizeOf self) self other le_rfl


/-- Size bound: a sub-selection set is no larger than its selection. -/
theorem sizeOf_selectionSet_le {s : Selection} {ss : SelectionSet}
    (hss : s.selectionSet = some ss) : sizeOf ss ≤ sizeOf s := by
  obtain ⟨sty, ssels⟩ := ss
  cases s with
  | field d sub =>
    cases sub with
    | none => simp [Selection.selectionSet] at hss
    | some p =>
      obtain ⟨ty2, ss2⟩ := p
      simp [Selection.selectionSet] at hss
      obtain ⟨h4, h5⟩ := hss
      subst_vars
      simp
      try omega
  | inlineFragment d ty2 ss2 =>
    simp [Selection.selectionSet] at hss
    obtain ⟨h4, h5⟩ := hss
    subst_vars
    simp
    try omega
  | fragmentSpread d ty2 ss2 =>
    simp [Selection.selectionSet] at hss
    obtain ⟨h4, h5⟩ := hss
    subst_vars
    simp
    try omega

/-- Size bound: the child list of a selection set is smaller than the set. -/
theorem sizeOf_selections_lt (ss : SelectionSet) :
    sizeOf ss.selections < sizeOf ss := by
  cases ss
  simp
  try omega

/-- Every selection has positive size. -/
theorem sizeOf_selection_pos (s : Selection) : 1 ≤ sizeOf s := by
  cases s <;> simp <;> omega

/-- The difference with an empty subtrahend is the identity. -/
theorem listMinus_nil_right (self : List Selection) : listMinus self [] = self := by
  induction self with
  | nil => rw [listMinus_nil]
  | cons s rest ih =>
    rw [listMinus_cons]
    simp [listGet_nil, ih]

/-- Well-formed child lists have pairwise distinct keys. -/
theorem wfSels_nodup {l : List Selection} (h : wfSels l = true) :
    (keysOf l).Nodup := by
  unfold wfSels at h
  simp at h
  exact h.1

/-- Members of a list on which `wfAll` holds are well-formed selections. -/
theorem wf_of_wfAll {l : List Selection} {s : Selection}
    (h : wfAll l = true) (hs : s ∈ l) : s.wf = true := by
  induction l with
  | nil => cases hs
  | cons a rest ih =>
    rw [wfAll] at h
    simp at h
    cases hs with
    | head => exact h.1
    | tail _ hmem => exact ih h.2 hmem

/-- Members of a well-formed child list are well-formed selections. -/
theorem wf_of_mem_wfSels {l : List Selection} {s : Selection}
    (h : wfSels l = true) (hs : s ∈ l) : s.wf = true := by
  unfold wfSels at h
  simp at h
  exact wf_of_wfAll h.2 hs

/-- The sub-selection set of a well-formed selection is well-formed. -/
theorem wfSels_of_selectionSet {s : Selection} {ss : SelectionSet}
    (hw : s.wf = true) (hs : s.selectionSet = some ss) :
    wfSels ss.selections = true := by
  obtain ⟨sty, ssels⟩ := ss
  unfold Selection.wf at hw
  unfold wfSels
  cases s with
  | field d sub =>
    cases sub with
    | none => simp [Selection.selectionSet] at hs
    | some p =>
      obtain ⟨ty2, ss2⟩ := p
      simp [Selection.selectionSet] at hs
      obtain ⟨h1, h2⟩ := hs
      subst_vars
      simpa using hw
  | inlineFragment d ty2 ss2 =>
    simp [Selection.selectionSet] at hs
    obtain ⟨h1, h2⟩ := hs
    subst_vars
    simpa using hw
  | fragmentSpread d ty2 ss2 =>
    simp [Selection.selectionSet] at hs
    obtain ⟨h1, h2⟩ := hs
    subst_vars
    simpa using hw

/-- Membership characterization of the keys of a child-list intersection. -/
theorem mem_keysOf_listIntersection {X Y : List Selection} {k : SelectionKey}
    (hnd : (keysOf X).Nodup) :
    k ∈ keysOf (listIntersection X Y) ↔
      ∃ x y, listGet X k = some x ∧ listGet Y k = some y ∧
        (Selection.intersection x y).isSome = true := by
  induction X with
  | nil => simp [listIntersection_nil, keysOf, listGet_nil]
  | cons a rest ih =>
    have hnd2 : a.key ∉ keysOf rest ∧ (keysOf rest).Nodup := by
      simpa [keysOf] using hnd
    rw [listIntersection_cons]
    rw [show keysOf ((match listGet Y a.key with
        | some ov => (Selection.intersection a ov).toList
        | none => []) ++ listIntersection rest Y) =
        keysOf (match listGet Y a.key with
          | some ov => (Selection.intersection a ov).toList
          | none => []) ++ keysOf (listIntersection rest Y) from by
      simp [keysOf]]
    rw [List.mem_append]
    by_cases hak : a.key = k
    · subst hak
      have htail : a.key ∉ keysOf (listIntersection rest Y) := fun hmem =>
        hnd2.1 ((keysOf_listIntersection_sublist rest Y).mem hmem)
      rw [listGet_cons, if_pos rfl]
      have htail2 : ∀ x ∈ listIntersection rest Y, ¬x.key = a.key := by
        intro x hx hkey
        exact htail (hkey ▸ List.mem_map_of_mem Selection.key hx)
      cases hg : listGet Y a.key with
      | none =>
        simp [keysOf]
        exact htail2
      | some y =>
        dsimp only
        cases hi : Selection.intersection a y with
        | none =>
          simp [keysOf, hi]
          exact htail2
        | some r =>
          simp [keysOf, htail2, hi, Selection.intersection_key hi]
    · have hcontrib : k ∉ keysOf (match listGet Y a.key with
          | some ov => (Selection.intersection a ov).toList
          | none => []) := by
        cases hg : listGet Y a.key with
        | none => simp [keysOf]
        | some y =>
          dsimp only
          cases hi : Selection.intersection a y with
          | none => simp [keysOf]
          | some r =>
            simp [keysOf, Selection.intersection_key hi, hak]
            exact Ne.symm hak
      rw [listGet_cons, if_neg hak]
      simp only [hcontrib, false_or]
      exact ih hnd2.2

/-- Bounded mutual statement: on well-formed inputs, whether the
selection-level intersection produces a selection is symmetric, and so is the
emptiness of the child-list intersection (the produced values, however, need
not agree — see the counterexample for the corresponding claim). -/
theorem intersection_comm_bounded : ∀ n : Nat,
    (∀ s t : Selection, sizeOf s + sizeOf t ≤ n → s.wf = true → t.wf = true →
      (Selection.intersection s t).isSome = (Selection.intersection t s).isSome) ∧
    (∀ X Y : List Selection, sizeOf X + sizeOf Y ≤ n → wfSels X = true →
      wfSels Y = true →
      (listIntersection X Y = [] ↔ listIntersection Y X = [])) := by
  intro n
  induction n with
  | zero =>
    constructor
    · intro s t hle _ _
      have h1 := sizeOf_selection_pos s
      have h2 := sizeOf_selection_pos t
      omega
    · intro X Y hle _ _
      have h1 : 1 ≤ sizeOf X := by cases X <;> simp <;> omega
      omega
  | succ n ih =>
    constructor
    · intro s t hle hws hwt
      cases hs : s.selectionSet with
      | none =>
        rw [Selection.intersection_eq s t, Selection.intersection_eq t s, hs]
        cases htt : t.selectionSet <;> rfl
      | some ss =>
        cases htt : t.selectionSet with
        | none =>
          rw [Selection.intersection_eq s t, Selection.intersection_eq t s, hs, htt]
          rfl
        | some ts =>
          rw [Selection.intersection_eq s t, Selection.intersection_eq t s, hs, htt]
          dsimp only
          have hsz : sizeOf ss.selections + sizeOf ts.selections ≤ n := by
            have e1 := sizeOf_selectionSet_le hs
            have e2 := sizeOf_selectionSet_le htt
            have e3 := sizeOf_selections_lt ss
            have e4 := sizeOf_selections_lt ts
            omega
          have hcomm := ih.2 ss.selections ts.selections hsz
            (wfSels_of_selectionSet hws hs) (wfSels_of_selectionSet hwt htt)
          by_cases he : listIntersection ss.selections ts.selections = []
          · rw [if_pos (by simp [he]), if_pos (by simp [hcomm.mp he])]
          · have he2 : ¬ listIntersection ts.selections ss.selections = [] :=
              fun h => he (hcomm.mpr h)
            rw [if_neg (by simp [he]), if_neg (by simp [he2])]
            rfl
    · intro X Y hle hwX hwY
      have hdir : ∀ P Q : List Selection, sizeOf P + sizeOf Q ≤ n + 1 →
          wfSels P = true → wfSels Q = true →
          listIntersection P Q = [] → listIntersection Q P = [] := by
        intro P Q hle2 hwP hwQ hpq
        by_contra hne
        obtain ⟨w, hw⟩ := List.exists_mem_of_ne_nil _ hne
        have hkw : w.key ∈ keysOf (listIntersection Q P) :=
          List.mem_map_of_mem _ hw
        rw [mem_keysOf_listIntersection (wfSels_nodup hwQ)] at hkw
        obtain ⟨q, p, hgq, hgp, hsome⟩ := hkw
        have hp : p ∈ P := List.mem_of_find?_eq_some hgp
        have hq : q ∈ Q := List.mem_of_find?_eq_some hgq
        have hsz : sizeOf p + sizeOf q ≤ n := by
          have m1 := List.sizeOf_lt_of_mem hp
          have m2 := List.sizeOf_lt_of_mem hq
          omega
        have hflip : (Selection.intersection p q).isSome = true := by
          rw [ih.1 p q hsz (wf_of_mem_wfSels hwP hp) (wf_of_mem_wfSels hwQ hq)]
          exact hsome
        have hcontra : w.key ∈ keysOf (listIntersection P Q) := by
          rw [mem_keysOf_listIntersection (wfSels_nodup hwP)]
          exact ⟨p, q, hgp, hgq, hflip⟩
        rw [hpq] at hcontra
        simp [keysOf] at hcontra
      exact ⟨hdir X Y hle hwX hwY, hdir Y X (by omega) hwY hwX⟩

/-- Symmetry of key sets of the child-list intersection on well-formed
inputs. -/
theorem listIntersection_keys_comm {X Y : List Selection}
    (hwX : wfSels X = true) (hwY : wfSels Y = true) (k : SelectionKey) :
    k ∈ keysOf (listIntersection X Y) ↔ k ∈ keysOf (listIntersection Y X) := by
  rw [mem_keysOf_listIntersection (wfSels_nodup hwX),
    mem_keysOf_listIntersection (wfSels_nodup hwY)]
  constructor
  · rintro ⟨x, y, hgx, hgy, hsome⟩
    refine ⟨y, x, hgy, hgx, ?_⟩
    rw [(intersection_comm_bounded (sizeOf y + sizeOf x)).1 y x le_rfl
      (wf_of_mem_wfSels hwY (List.mem_of_find?_eq_some hgy))
      (wf_of_mem_wfSels hwX (List.mem_of_find?_eq_some hgx))]
    exact hsome
  · rintro ⟨y, x, hgy, hgx, hsome⟩
    refine ⟨x, y, hgx, hgy, ?_⟩
    rwa [(intersection_comm_bounded (sizeOf x + sizeOf y)).1 x y le_rfl
      (wf_of_mem_wfSels hwX (List.mem_of_find?_eq_some hgx))
      (wf_of_mem_wfSels hwY (List.mem_of_find?_eq_some hgy))]


/-! ## Claim theorems (selection map and set algebra) -/

/-- **C2** (code bug): `SelectionMap::insert` does not overwrite an existing
entry with an equal key.  Evaluated at the failing input — a map holding the
field selection `a`, into which `a(x: 1)` (same key, different arguments) is
inserted — the map's length grows to 2, two live entries share one key, and
`get` on that key returns the old entry rather than the inserted selection.
This contradicts the claim and the doc comment on `SelectionMap`
("the selection map API itself will overwrite selections with the same
key"): `raw_insert` pushes unconditionally and `RawTable::insert` never
checks for an existing key. -/
theorem c2_insert_does_not_overwrite :
    ((SelectionMap.new.insert fieldA).insert fieldAx).len = 2 ∧
    ¬ ((SelectionMap.new.insert fieldA).insert fieldAx).keys.Nodup ∧
    fieldAx.key = fieldA.key ∧
    ((SelectionMap.new.insert fieldA).insert fieldAx).get fieldAx.key = some fieldA ∧
    fieldA ≠ fieldAx := by
  refine ⟨rfl, by decide, rfl, rfl, ?_⟩
  simp [fieldA, fieldAx]

/-- **C6** (confirmed): `SelectionSet::minus` keeps, verbatim, every child of
`self` whose key is absent from `other`; at a key present on both sides a
child is emitted exactly when both selections carry sub-selection sets whose
recursive difference is non-empty, and then the emitted child carries that
difference; when either side lacks a sub-selection set at a shared key
(including two leaves), nothing is emitted. -/
theorem c6_minus_difference_behaviour (S T : SelectionSet)
    (hnd : (keysOf S.selections).Nodup) :
    (∀ k, listGet T.selections k = none →
        listGet (S.minus T).selections k = listGet S.selections k) ∧
    (∀ k s t, listGet S.selections k = some s → listGet T.selections k = some t →
        listGet (S.minus T).selections k =
          (match s.selectionSet, t.selectionSet with
           | some ss, some ts =>
               if (ss.minus ts).isEmpty = true then none
               else some (s.withUpdatedSelections ss.typePosition
                 (ss.minus ts).selections)
           | _, _ => none)) := by
  constructor
  · intro k hk
    exact listMinus_get_of_none S.selections T.selections k hk
  · intro k s t hs ht
    rw [show (S.minus T).selections = listMinus S.selections T.selections from rfl,
      listMinus_get_of_both hnd hs ht, Selection.minus_eq]
    cases hss : s.selectionSet <;> cases htt : t.selectionSet <;> rfl

/-- Witness for `c6_minus_difference_behaviour` at `S = { a }`, `T = { b }`,
looked up at `a`'s key. -/
theorem c6_minus_difference_behaviour_witness :
    (keysOf setC6S.selections).Nodup ∧
      listGet (setC6S.minus setC6T).selections fieldA.key =
        listGet setC6S.selections fieldA.key :=
  ⟨by decide, (c6_minus_difference_behaviour setC6S setC6T (by decide)).1
    fieldA.key (by rfl)⟩

/-- **C7** (counterexample): the claimed law
`S.intersection(T) = T.intersection(S)` up to order-independent
selection-map equality fails on well-formed inputs: with `S = { a { x } }`
and `T = { a }` (a shared key where exactly one side has a sub-selection),
`S ∩ T = { a { x } }` while `T ∩ S = { a }`, which are different under the
order-independent equality. -/
theorem c7_intersection_not_commutative :
    SelectionSet.eqv (setS7.intersection setT7) (setT7.intersection setS7) = false ∧
    wfSels setS7.selections = true ∧ wfSels setT7.selections = true :=
  ⟨rfl, by decide, by decide⟩

/-- **C7** (amended): on well-formed selection sets, `(S − T) ∩ T` is empty;
`S ∩ T` and `T ∩ S` have the same key set (though not necessarily equal
entries, see the counterexample); `S − ∅ = S`; and `S ∩ ∅` is empty. -/
theorem c7_amended_algebraic_laws (S T : SelectionSet) (ty : TypeName)
    (hwS : wfSels S.selections = true) (hwT : wfSels T.selections = true) :
    ((S.minus T).intersection T).isEmpty = true ∧
    (∀ k, k ∈ keysOf ((S.intersection T).selections) ↔
        k ∈ keysOf ((T.intersection S).selections)) ∧
    S.minus ⟨ty, []⟩ = S ∧
    (S.intersection ⟨ty, []⟩).isEmpty = true := by
  refine ⟨?_, ?_, ?_, ?_⟩
  · unfold SelectionSet.intersection
    by_cases h1 : (S.minus T).selections.isEmpty = true
    · rw [if_pos h1]
      exact h1
    · rw [if_neg h1]
      by_cases h2 : T.selections.isEmpty = true
      · rw [if_pos h2]
        exact h2
      · rw [if_neg h2]
        show (listIntersection (S.minus T).selections T.selections).isEmpty = true
        rw [show (S.minus T).selections = listMinus S.selections T.selections from rfl,
          listIntersection_listMinus_empty]
        rfl
  · intro k
    unfold SelectionSet.intersection
    by_cases h1 : S.selections.isEmpty = true
    · have h1' : S.selections = [] := by simpa using h1
      by_cases h2 : T.selections.isEmpty = true
      · have h2' : T.selections = [] := by simpa using h2
        simp only [if_pos h1, if_pos h2]
        simp [keysOf, h1', h2']
      · simp only [if_pos h1, if_neg h2]
        try simp [keysOf, h1']
    · by_cases h2 : T.selections.isEmpty = true
      · have h2' : T.selections = [] := by simpa using h2
        simp only [if_neg h1, if_pos h2]
        try simp [keysOf, h2']
      · simp only [if_neg h1, if_neg h2]
        exact listIntersection_keys_comm hwS hwT k
  · cases S with
    | mk ty0 sels0 => simp [SelectionSet.minus, listMinus_nil_right]
  · unfold SelectionSet.intersection
    by_cases h1 : S.selections.isEmpty = true
    · rw [if_pos h1]
      exact h1
    · rw [if_neg h1]
      rfl

/-- Witness for `c7_amended_algebraic_laws` at the counterexample pair. -/
theorem c7_amended_algebraic_laws_witness :
    wfSels setS7.selections = true ∧
      ((setS7.minus setT7).intersection setT7).isEmpty = true :=
  ⟨by decide, (c7_amended_algebraic_laws setS7 setT7 "T" (by decide) (by decide)).1⟩

/-- **C5** (counterexample): at `ty = J` (an interface whose runtime types
are a strict subset of interface `I`'s), the fragment on `I` satisfies the
claim's predicate — its condition is abstract and a runtime-type superset of
`J` — yet `get_all_may_apply_directly_at_type` does not yield it, because
`can_apply_directly_at_type` rejects any non-union condition at a non-object
`ty` (short-circuit #3; see also the PORT_NOTE and the spec's open
question). -/
theorem c5_get_all_counterexample :
    getAllMayApplyDirectlyAtType schemaC5 [fragI] "J" = [] ∧
    List.filter (fun f => claimedMayApply schemaC5 f "J") [fragI] = [fragI] ∧
    ([] : List Fragment) ≠ [fragI] := by
  refine ⟨rfl, rfl, ?_⟩
  simp

/-- **C5** (amended): on a schema whose object types are not abstract,
`get_all_may_apply_directly_at_type(ty)` yields exactly the fragments whose
type condition equals `ty`, or is abstract **and either a union or applied at
an object type `ty`** with a runtime-type superset of `ty`; in particular a
fragment whose condition is an object type different from `ty` is never
yielded. -/
theorem c5_amended_get_all (sch : Schema) (frags : NamedFragments) (ty : TypeName)
    (hdisj : ∀ t, ¬(sch.isObjectType t = true ∧ sch.isAbstractType t = true)) :
    getAllMayApplyDirectlyAtType sch frags ty =
      frags.filter (fun f => amendedMayApply sch f ty) ∧
    ∀ f ∈ getAllMayApplyDirectlyAtType sch frags ty,
      sch.isObjectType f.typeCondition = true → f.typeCondition = ty := by
  have hpt : ∀ f : Fragment, f.canApplyDirectlyAtType sch ty = amendedMayApply sch f ty := by
    intro f
    unfold Fragment.canApplyDirectlyAtType amendedMayApply
    by_cases h1 : f.typeCondition = ty
    · simp [h1]
    · rw [if_neg h1]
      have h1' : (f.typeCondition == ty) = false := by
        simp [h1]
      rw [h1']
      cases h2 : sch.isAbstractType f.typeCondition with
      | false => simp
      | true =>
        simp only [Bool.not_true, Bool.false_and, if_false, Bool.true_and,
          Bool.false_or]
        cases h3 : sch.isUnionType f.typeCondition with
        | true => simp
        | false =>
          cases h4 : sch.isObjectType ty with
          | true => simp
          | false => simp
  constructor
  · unfold getAllMayApplyDirectlyAtType
    exact List.filter_congr (fun f _ => hpt f)
  · intro f hf hobj
    unfold getAllMayApplyDirectlyAtType at hf
    have hcan : f.canApplyDirectlyAtType sch ty = true := (List.mem_filter.mp hf).2
    rw [hpt] at hcan
    unfold amendedMayApply at hcan
    by_cases h1 : f.typeCondition = ty
    · exact h1
    · exfalso
      have h1' : (f.typeCondition == ty) = false := by simp [h1]
      rw [h1'] at hcan
      simp at hcan
      exact hdisj f.typeCondition ⟨hobj, hcan.1.1⟩

/-- Witness for `c5_amended_get_all` at the counterexample schema and
catalog. -/
theorem c5_amended_get_all_witness :
    getAllMayApplyDirectlyAtType schemaC5 [fragI] "J" =
      List.filter (fun f => amendedMayApply schemaC5 f "J") [fragI] :=
  (c5_amended_get_all schemaC5 [fragI] "J" (by
    intro t
    rintro ⟨h1, h2⟩
    simp [schemaC5, Schema.isAbstractType] at h1 h2
    rcases h1 with rfl | rfl <;> simp_all)).1

/-! ## Lemmas about expansion -/

/-- Every selection has positive size. -/
theorem Selection.size_pos (s : Selection) : 1 ≤ s.size := by
  cases s with
  | field d sub =>
      cases sub with
      | none => simp [Selection.size]
      | some p => simp [Selection.size]
  | inlineFragment d ty sels => simp [Selection.size]
  | fragmentSpread d ty sels => simp [Selection.size]

/-- A selection's size is below its own cons cell in the list size. -/
theorem size_le_sizeList_cons (s : Selection) (rest : List Selection) :
    s.size + sizeList rest < sizeList (s :: rest) := by
  simp [sizeList]

/-- Size-bounded statement: expansion is the identity on spread-free
selections and child lists. -/
theorem expand_id_bounded (n : Nat) :
    (∀ s : Selection, s.size ≤ n → s.containsSpread = false →
      s.expandAllFragments = s) ∧
    (∀ sels : List Selection, sizeList sels ≤ n → containsSpreadList sels = false →
      expandList sels = sels) := by
  induction n with
  | zero =>
      constructor
      · intro s hs _
        have := s.size_pos
        omega
      · intro sels hs _
        cases sels with
        | nil => rfl
        | cons a rest =>
            have := a.size_pos
            simp [sizeList] at hs
  | succ n ih =>
      constructor
      · intro s hs hns
        cases s with
        | field d sub =>
            cases sub with
            | none => rfl
            | some p =>
                obtain ⟨ty, sels⟩ := p
                simp [Selection.containsSpread] at hns
                simp [Selection.size] at hs
                simp [Selection.expandAllFragments]
                exact ih.2 sels (by omega) hns
        | inlineFragment d ty sels =>
            simp [Selection.containsSpread] at hns
            simp [Selection.size] at hs
            simp [Selection.expandAllFragments]
            exact ih.2 sels (by omega) hns
        | fragmentSpread d ty sels =>
            simp [Selection.containsSpread] at hns
      · intro sels hs hns
        cases sels with
        | nil => rfl
        | cons a rest =>
            simp [containsSpreadList, Bool.or_eq_false_iff] at hns
            simp [sizeList] at hs
            have h1 := ih.1 a (by omega) hns.1
            have h2 := ih.2 rest (by omega) hns.2
            simp [expandList, h1, h2]

/-- Expansion is the identity on spread-free child lists. -/
theorem expandList_id_of_no_spread (sels : List Selection)
    (h : containsSpreadList sels = false) : expandList sels = sels :=
  (expand_id_bounded (sizeList sels)).2 sels (Nat.le_refl _) h

/-! ## Claim C10 -/

/-- C10: with an empty fragment catalog, `SelectionSet::reuse_fragments`
returns `Ok` with the selection set unchanged, and
`Operation::reuse_fragments_inner` returns `Ok` with the operation
unchanged, for any input — in particular even when the selection set
contains fragment spreads, since the no-spread check sits after the
empty-catalog early return. -/
theorem c10_empty_catalog_noop (sch : Schema) :
    (∀ (ss : SelectionSet) (ctx : ReuseContext), ctx.fragments = [] →
      SelectionSet.reuseFragments ss sch ctx = .ok ss) ∧
    (∀ (op : Operation) (m : Nat),
      Operation.reuseFragmentsInner op sch [] m = .ok op) := by
  constructor
  · intro ss ctx hctx
    unfold SelectionSet.reuseFragments
    rw [hctx]
    rfl
  · intro op m
    rfl

/-- Witness for C10 on spread-containing inputs: the selection set
`{ ...TFrag }` and an operation holding it pass through unchanged. -/
theorem c10_empty_catalog_noop_witness :
    SelectionSet.reuseFragments ssSpread schemaQ ⟨[], none⟩ = .ok ssSpread ∧
    Operation.reuseFragmentsInner ⟨[], ssSpread, []⟩ schemaQ [] 2 =
      .ok ⟨[], ssSpread, []⟩ :=
  ⟨(c10_empty_catalog_noop schemaQ).1 ssSpread ⟨[], none⟩ rfl,
   (c10_empty_catalog_noop schemaQ).2 ⟨[], ssSpread, []⟩ 2⟩

/-! ## Claim C3 -/

/-- C3 counterexample: a selection set containing a fragment spread does not
make `reuse_fragments` error when the catalog is empty — the call returns
`Ok` with the set unchanged, refuting "errors whenever the input contains a
spread". -/
theorem c3_spread_without_error :
    ssSpread.containsFragmentSpread = true ∧
    SelectionSet.reuseFragments ssSpread schemaQ ⟨[], none⟩ = .ok ssSpread :=
  ⟨rfl, rfl⟩

/-- C3 amended: when the catalog is non-empty and the input selection set
contains a fragment spread at any depth, `SelectionSet::reuse_fragments`
returns an internal error (and, being a pure function of its input, leaves
the selection set untouched). -/
theorem c3_amended_spread_error (sch : Schema) (ss : SelectionSet)
    (ctx : ReuseContext) (hne : ctx.fragments ≠ [])
    (hsp : ss.containsFragmentSpread = true) :
    ∃ msg, SelectionSet.reuseFragments ss sch ctx = .error (.internal msg) := by
  have hempty : ctx.fragments.isEmpty = false := by
    cases h : ctx.fragments with
    | nil => exact absurd h hne
    | cons a l => rfl
  exact ⟨"reuse_fragments() must only be used on selection sets that do not contain named fragment spreads",
    by simp [SelectionSet.reuseFragments, hempty, hsp]⟩

/-- Witness for the amended C3 at a concrete spread-containing input. -/
theorem c3_amended_spread_error_witness :
    ∃ msg, SelectionSet.reuseFragments ssSpread schemaQ ⟨[tFrag], none⟩ =
      .error (.internal msg) :=
  c3_amended_spread_error schemaQ ssSpread ⟨[tFrag], none⟩ (by simp) rfl

/-! ## Claim C4 -/

/-- C4 counterexample: `Operation::reuse_fragments` is not idempotent.  On
`query { t { id a } t2 { id a } }` with catalog `[TFrag on T { id a }]` the
first call succeeds (rewriting both sub-selections to `{ ...TFrag }`), but
the second call on the rewritten operation returns an internal error,
because the rewritten selection set now contains fragment spreads and the
no-spread precondition is re-checked while the catalog is still
non-empty. -/
theorem c4_not_idempotent :
    exceptOk (Operation.reuseFragments opC4 schemaQ [tFrag]) = true ∧
    exceptOk ((Operation.reuseFragments opC4 schemaQ [tFrag]).bind
      (fun o => Operation.reuseFragments o schemaQ [tFrag])) = false :=
  ⟨by decide, by decide⟩

/-- C4 amended: reapplication is only a no-op in the cases that do not
rewrite — with an empty catalog the composition of two calls equals one
call; and whenever a successful call leaves fragment spreads in the
selection set while the catalog is non-empty, the second call errors
instead of repeating the result. -/
theorem c4_amended_reapplication (sch : Schema) (op : Operation) :
    ((Operation.reuseFragments op sch []).bind
        (fun o => Operation.reuseFragments o sch []) =
      Operation.reuseFragments op sch []) ∧
    (∀ (frags : NamedFragments) (op2 : Operation), frags ≠ [] →
      Operation.reuseFragments op sch frags = .ok op2 →
      op2.selectionSet.containsFragmentSpread = true →
      ∃ e, Operation.reuseFragments op2 sch frags = .error e) := by
  constructor
  · rfl
  · intro frags op2 hne _ hsp
    unfold Operation.reuseFragments Operation.reuseFragmentsInner
    have hempty : frags.isEmpty = false := by
      cases h : frags with
      | nil => exact absurd h hne
      | cons a l => rfl
    rw [hempty]
    simp only [Bool.false_eq_true, if_false]
    obtain ⟨msg, herr⟩ := c3_amended_spread_error sch op2.selectionSet
      (ReuseContext.forOperation frags op2.opVariables)
      (by simpa [ReuseContext.forOperation] using hne) hsp
    rw [herr]
    exact ⟨.internal msg, rfl⟩

/-- Witness for the amended C4: the empty-catalog composition at `opC4`, and
the error of the second call on the concrete rewritten operation
`op2C4`. -/
theorem c4_amended_reapplication_witness :
    ((Operation.reuseFragments opC4 schemaQ []).bind
        (fun o => Operation.reuseFragments o schemaQ []) =
      Operation.reuseFragments opC4 schemaQ []) ∧
    (∃ e, Operation.reuseFragments op2C4 schemaQ [tFrag] = .error e) := by
  have hokb : exceptOk (Operation.reuseFragments opC4 schemaQ [tFrag]) = true := by
    decide
  have heq : Operation.reuseFragments opC4 schemaQ [tFrag] = .ok op2C4 := by
    cases h : Operation.reuseFragments opC4 schemaQ [tFrag] with
    | ok o => simp [op2C4, h]
    | error e => rw [h] at hokb; exact absurd hokb (by simp [exceptOk])
  have hsp : op2C4.selectionSet.containsFragmentSpread = true := by decide
  exact ⟨(c4_amended_reapplication schemaQ opC4).1,
    (c4_amended_reapplication schemaQ opC4).2 [tFrag] op2C4 (by simp) heq hsp⟩

/-! ## Claim C1 -/

/-- C1 counterexample: on `query { t { id a } t2 { id a } }` with catalog
`[TFrag on T { id a }]`, `reuse_fragments` succeeds but expanding all
fragments of the rewritten selection set is not equal — under
order-independent selection-map equality — to the expansion of the
original: expansion rewrites each introduced spread `...TFrag` into the
inline fragment `... on T { id a }` rather than splicing its body, so the
rewritten side keeps an extra level of nesting. -/
theorem c1_expansion_not_preserved :
    ((Operation.reuseFragments opC4 schemaQ [tFrag]).map (fun o =>
      mapEqv (SelectionSet.expandAllFragments o.selectionSet).selections
        (SelectionSet.expandAllFragments opC4.selectionSet).selections)).toOption =
      some false := by
  decide

/-- C1 amended: for a successful `reuse_fragments` whose input and output
selection sets are both free of fragment spreads, expansion is the identity
on both sides, so the expansions compare (under order-independent
selection-map equality) exactly as the unexpanded selection sets do; in
particular semantic preservation in the claimed form holds precisely when
the rewrite left the selection set equivalent. -/
theorem c1_amended_expansion (sch : Schema) (frags : NamedFragments)
    (op op2 : Operation)
    (_hok : Operation.reuseFragments op sch frags = .ok op2)
    (h1 : op.selectionSet.containsFragmentSpread = false)
    (h2 : op2.selectionSet.containsFragmentSpread = false) :
    mapEqv (SelectionSet.expandAllFragments op2.selectionSet).selections
        (SelectionSet.expandAllFragments op.selectionSet).selections =
      mapEqv op2.selectionSet.selections op.selectionSet.selections := by
  unfold SelectionSet.containsFragmentSpread at h1 h2
  simp [SelectionSet.expandAllFragments, expandList_id_of_no_spread _ h1,
    expandList_id_of_no_spread _ h2]

/-- Witness for the amended C1: the empty-catalog call on `opC4` succeeds
and both sides are spread-free; the expansions compare as the originals
do. -/
theorem c1_amended_expansion_witness :
    Operation.reuseFragments opC4 schemaQ [] = .ok opC4 ∧
    opC4.selectionSet.containsFragmentSpread = false ∧
    mapEqv (SelectionSet.expandAllFragments opC4.selectionSet).selections
        (SelectionSet.expandAllFragments opC4.selectionSet).selections =
      mapEqv opC4.selectionSet.selections opC4.selectionSet.selections :=
  ⟨rfl, rfl, c1_amended_expansion schemaQ [] opC4 opC4 rfl rfl rfl⟩


/-! ## Lemmas about the local-add merge -/

/-- A child list is shorter than its node count. -/
theorem length_lt_sizeList (l : List Selection) : l.length < sizeList l := by
  induction l with
  | nil => simp [sizeList]
  | cons s rest ih =>
      have := s.size_pos
      simp only [sizeList, List.length_cons]
      omega

/-- With enough fuel, adding a fresh-keyed selection appends it. -/
theorem addOneLocalFuel_append (target : List Selection) :
    ∀ (fuel : Nat) (b : Selection), target.length < fuel →
      b.key ∉ keysOf target → addOneLocalFuel fuel target b = target ++ [b] := by
  induction target with
  | nil =>
      intro fuel b hf _
      cases fuel with
      | zero => omega
      | succ f => rfl
  | cons t rest ih =>
      intro fuel b hf hb
      cases fuel with
      | zero => simp at hf
      | succ f =>
          simp only [keysOf, List.map_cons, List.mem_cons] at hb
          push_neg at hb
          have hne : ¬ (t.key = b.key) := fun h => hb.1 h.symm
          simp only [addOneLocalFuel, if_neg hne]
          rw [ih f b (by simp at hf; omega) (by simpa [keysOf] using hb.2)]
          simp

/-- With enough fuel, adding a list of fresh, pairwise-distinct-keyed
selections appends it. -/
theorem addAllLocalFuel_append :
    ∀ (new : List Selection) (fuel : Nat) (target : List Selection),
      target.length + 2 * new.length < fuel →
      (∀ k ∈ keysOf new, k ∉ keysOf target) → (keysOf new).Nodup →
      addAllLocalFuel fuel target new = target ++ new := by
  intro new
  induction new with
  | nil =>
      intro fuel target hf _ _
      cases fuel with
      | zero => omega
      | succ f => simp [addAllLocalFuel]
  | cons n rest ih =>
      intro fuel target hf hk hnd
      cases fuel with
      | zero => omega
      | succ f =>
          simp only [addAllLocalFuel]
          simp only [keysOf, List.map_cons, List.nodup_cons] at hnd
          have h1 : addOneLocalFuel f target n = target ++ [n] := by
            apply addOneLocalFuel_append target f n
            · simp only [List.length_cons] at hf; omega
            · exact hk n.key (by simp [keysOf])
          have hlen : (target ++ [n]).length + 2 * rest.length < f := by
            simp only [List.length_append, List.length_cons, List.length_nil,
              List.length_cons] at hf ⊢
            omega
          have hkeys : ∀ k ∈ keysOf rest, k ∉ keysOf (target ++ [n]) := by
            intro k hkr
            simp only [keysOf, List.map_append, List.map_cons, List.map_nil,
              List.mem_append, List.mem_cons, List.mem_nil_iff] at *
            push_neg
            constructor
            · exact hk k (Or.inr hkr)
            · constructor
              · intro hkn
                exact hnd.1 (hkn ▸ hkr)
              · exact fun h => h.elim
          rw [h1, ih f (target ++ [n]) hlen hkeys hnd.2]
          simp

/-- `add_local_selection` of a fresh-keyed selection appends it. -/
theorem addOneLocal_append (target : List Selection) (b : Selection)
    (hb : b.key ∉ keysOf target) : addOneLocal target b = target ++ [b] := by
  apply addOneLocalFuel_append target _ b ?_ hb
  have h1 := length_lt_sizeList target
  have hx : sizeList target + sizeList [b] + 1 ≤
      (sizeList target + sizeList [b] + 1) * (sizeList target + sizeList [b] + 1) :=
    Nat.le_mul_of_pos_left _ (by omega)
  unfold mergeFuel
  omega

/-- `add_local_selection_set` of fresh, pairwise-distinct-keyed selections
appends them. -/
theorem addAllLocal_append (target new : List Selection)
    (hk : ∀ k ∈ keysOf new, k ∉ keysOf target) (hnd : (keysOf new).Nodup) :
    addAllLocal target new = target ++ new := by
  apply addAllLocalFuel_append new _ target ?_ hk hnd
  have h1 := length_lt_sizeList target
  have h2 := length_lt_sizeList new
  have hx : 2 * (sizeList target + sizeList new + 1) ≤
      (sizeList target + sizeList new + 1) * (sizeList target + sizeList new + 1) :=
    Nat.mul_le_mul_right _ (by omega)
  unfold mergeFuel
  omega

/-- The key of a directive-free generated spread. -/
theorem mkSpread_key (f : Fragment) :
    (mkSpreadFromFragment f []).key = SelectionKey.fragmentSpread f.name [] := rfl

/-- Keys of a list of generated spreads. -/
theorem keysOf_map_spread (acc : List Fragment) :
    keysOf (acc.map (fun f => mkSpreadFromFragment f [])) =
      acc.map (fun f => SelectionKey.fragmentSpread f.name []) := by
  induction acc with
  | nil => rfl
  | cons f rest ih =>
      simp only [keysOf, List.map_cons] at ih ⊢
      rw [mkSpread_key, ih]

/-- Keys of a selection-set intersection form a sublist of the left
operand's keys. -/
theorem keysOf_intersection_sublist (a b : SelectionSet) :
    (keysOf (SelectionSet.intersection a b).selections).Sublist
      (keysOf a.selections) := by
  by_cases h1 : a.selections.isEmpty
  · simp [SelectionSet.intersection, h1]
  · by_cases h2 : b.selections.isEmpty
    · have hb : b.selections = [] := by simpa [List.isEmpty_iff] using h2
      simp [SelectionSet.intersection, h1, h2, hb, keysOf]
    · simp only [SelectionSet.intersection, h1, h2]
      simp only [Bool.false_eq_true, if_false]
      exact keysOf_listIntersection_sublist _ _


/-- The collected applicable fragments come, in order, from the candidate
list. -/
theorem collectApplicable_names (sch : Schema) (self : SelectionSet)
    (pty : TypeName) (ctx : ReuseContext) (fm : FullMatchingFragmentCondition) :
    ∀ (cands : List Fragment) (v : MultiBranchValidator)
      (apps : List (Fragment × FragmentRestrictionAtType)) (v2 : MultiBranchValidator),
      collectApplicable sch self pty ctx fm v cands = .collected apps v2 →
      (apps.map (fun p => p.1.name)).Sublist (cands.map Fragment.name) := by
  intro cands
  induction cands with
  | nil =>
      intro v apps v2 h
      simp only [collectApplicable, TryApplyPhase1.collected.injEq] at h
      simp [← h.1]
  | cons c rest ih =>
      intro v apps v2 h
      simp only [collectApplicable] at h
      split at h
      · exact (ih _ _ _ h).trans (List.sublist_cons_self _ _)
      · split at h
        · exact (ih _ _ _ h).trans (List.sublist_cons_self _ _)
        · split at h
          · split at h
            · split at h
              · simp at h
              · exact (ih _ _ _ h).trans (List.sublist_cons_self _ _)
            · split at h
              · split at h
                · simp at h
                · rename_i apps2 v3 heq
                  simp only [TryApplyPhase1.collected.injEq] at h
                  rw [← h.1]
                  simp only [List.map_cons]
                  exact List.Sublist.cons₂ _ (ih _ _ _ heq)
              · exact (ih _ _ _ h).trans (List.sublist_cons_self _ _)
          · split at h
            · split at h
              · simp at h
              · rename_i apps2 v3 heq
                simp only [TryApplyPhase1.collected.injEq] at h
                rw [← h.1]
                simp only [List.map_cons]
                exact List.Sublist.cons₂ _ (ih _ _ _ heq)
            · exact (ih _ _ _ h).trans (List.sublist_cons_self _ _)
          · exact (ih _ _ _ h).trans (List.sublist_cons_self _ _)


/-- Specification of the build loop of `try_apply_fragments`: starting from
an accumulator of generated spreads, the loop appends the spreads of the
fragments it accepts — a subsequence of the applicable list, in order — and
only ever narrows the uncovered remainder's key list. -/
theorem buildLoop_spec (sch : Schema) (self : SelectionSet) :
    ∀ (apps : List (Fragment × FragmentRestrictionAtType))
      (v : MultiBranchValidator) (notCov : SelectionSet) (acc : List Fragment),
      ((acc ++ apps.map (fun p => p.1)).map Fragment.name).Nodup →
      ∃ (accepted : List Fragment) (notCov2 : SelectionSet) (v2 : MultiBranchValidator),
        buildOptimizedLoop sch self v notCov
            (acc.map (fun f => mkSpreadFromFragment f [])) apps =
          ((acc ++ accepted).map (fun f => mkSpreadFromFragment f []), notCov2, v2) ∧
        (accepted.map Fragment.name).Sublist
          ((apps.map (fun p => p.1)).map Fragment.name) ∧
        (keysOf notCov2.selections).Sublist (keysOf notCov.selections) := by
  intro apps
  induction apps with
  | nil =>
      intro v notCov acc _
      exact ⟨[], notCov, v, by simp [buildOptimizedLoop], by simp, List.Sublist.refl _⟩
  | cons p rest ih =>
      intro v notCov acc hnd
      obtain ⟨f, atType⟩ := p
      have hshrink : ((acc ++ rest.map (fun p => p.1)).map Fragment.name).Nodup := by
        apply List.Nodup.sublist ?_ hnd
        apply List.Sublist.map
        apply List.Sublist.append_left
        simp only [List.map_cons]
        exact List.sublist_cons_self _ _
      cases hc : v.checkCanReuseFragmentAndTrackIt sch atType with
  | mk ok v2 =>
      cases ok with
      | false =>
          obtain ⟨accepted, n2, v3, heq, hsub, hk⟩ := ih v2 notCov acc hshrink
          refine ⟨accepted, n2, v3, ?_, ?_, hk⟩
          · simp only [buildOptimizedLoop, hc]
            exact heq
          · exact hsub.trans (by simp only [List.map_cons]; exact List.sublist_cons_self _ _)
      | true =>
          have hfresh : (mkSpreadFromFragment f []).key ∉
              keysOf (acc.map (fun g => mkSpreadFromFragment g [])) := by
            rw [mkSpread_key, keysOf_map_spread]
            intro hmem
            simp only [List.mem_map] at hmem
            obtain ⟨g, hg, hgk⟩ := hmem
            have hname : g.name = f.name := by
              injection hgk
            have : ¬ f.name ∈ acc.map Fragment.name := by
              simp only [List.map_append, List.map_cons] at hnd
              have := (List.nodup_append.mp hnd).2.2
              intro habs
              exact this habs (by simp)
            exact this (hname ▸ List.mem_map_of_mem Fragment.name hg)
          have hone : addOneLocal (acc.map (fun g => mkSpreadFromFragment g []))
              (mkSpreadFromFragment f []) =
              (acc ++ [f]).map (fun g => mkSpreadFromFragment g []) := by
            rw [addOneLocal_append _ _ hfresh]
            simp
          have hnd2 : (((acc ++ [f]) ++ rest.map (fun p => p.1)).map Fragment.name).Nodup := by
            have : (acc ++ [f]) ++ rest.map (fun p => p.1) =
                acc ++ (f, atType).1 :: rest.map (fun p => p.1) := by
              simp
            rw [this]
            simpa using hnd
          obtain ⟨accepted, n2, v3, heq, hsub, hk⟩ :=
            ih v2 (notCov.intersection (self.minus atType.selections)) (acc ++ [f]) hnd2
          refine ⟨f :: accepted, n2, v3, ?_, ?_, ?_⟩
          · simp only [buildOptimizedLoop, hc]
            rw [hone, heq]
            simp
          · simp only [List.map_cons]
            exact List.Sublist.cons₂ _ hsub
          · exact hk.trans (keysOf_intersection_sublist _ _)


/-! ## Claim C9 -/

/-- C9: when `try_apply_fragments` returns a selection set, that set is the
generated fragment spreads — taken, in order, from the applicable candidates
— followed by the uncovered remainder, whose keys keep the relative order
they had in the input selection set.  Hypotheses: the catalog has distinct
fragment names and the input's child keys are distinct and (as guaranteed
for `reuse_fragments` inputs) none of them is already a fragment-spread
key. -/
theorem c9_spreads_then_remainder
    (sch : Schema) (self : SelectionSet) (ty : TypeName) (ctx : ReuseContext)
    (v : MultiBranchValidator) (fm : FullMatchingFragmentCondition)
    (out : SelectionSet) (v2 : MultiBranchValidator)
    (hnodup : (ctx.fragments.map Fragment.name).Nodup)
    (hkeys : (keysOf self.selections).Nodup)
    (hnospread : ∀ k ∈ keysOf self.selections, k.isSpreadKey = false)
    (hres : SelectionSet.tryApplyFragments self sch ty ctx v fm =
      (.selectionSet out, v2)) :
    ∃ (accepted : List Fragment) (remainder : List Selection),
      out.selections =
        accepted.map (fun f => mkSpreadFromFragment f []) ++ remainder ∧
      (accepted.map Fragment.name).Sublist
        ((getAllMayApplyDirectlyAtType sch ctx.fragments ty).map Fragment.name) ∧
      (keysOf remainder).Sublist (keysOf self.selections) := by
  have hcands : ((getAllMayApplyDirectlyAtType sch ctx.fragments ty).map
      Fragment.name).Nodup := by
    apply List.Nodup.sublist ?_ hnodup
    exact List.Sublist.map _ (List.filter_sublist _)
  simp only [SelectionSet.tryApplyFragments] at hres
  cases hcol : collectApplicable sch self ty ctx fm v
      (getAllMayApplyDirectlyAtType sch ctx.fragments ty) with
  | fullMatch fme vfm =>
      rw [hcol] at hres
      simp at hres
  | collected apps vc =>
      rw [hcol] at hres
      by_cases he : apps.isEmpty
      · simp only [he, if_true, Prod.mk.injEq,
          SelectionSetOrFragment.selectionSet.injEq] at hres
        refine ⟨[], self.selections, ?_, by simp, List.Sublist.refl _⟩
        rw [← hres.1]
        simp
      · have happs := collectApplicable_names sch self ty ctx fm _ _ _ _ hcol
        have happs2names : ((reduceApplicableFragments apps).map
            (fun p => p.1)).map Fragment.name =
            (reduceApplicableFragments apps).map
              (fun p : Fragment × FragmentRestrictionAtType => p.1.name) := by
          simp [List.map_map]
        have happs2 : ((reduceApplicableFragments apps).map
            (fun p : Fragment × FragmentRestrictionAtType => p.1.name)).Sublist
            ((getAllMayApplyDirectlyAtType sch ctx.fragments ty).map
              Fragment.name) := by
          apply List.Sublist.trans ?_ happs
          exact List.Sublist.map _ (List.filter_sublist _)
        have hnd2 : (([] ++ (reduceApplicableFragments apps).map
            (fun p : Fragment × FragmentRestrictionAtType => p.1)).map
            Fragment.name).Nodup := by
          simp only [List.nil_append]
          rw [happs2names]
          exact List.Nodup.sublist happs2 hcands
        obtain ⟨accepted, n2, v3, heq, hsub, hk⟩ :=
          buildLoop_spec sch self (reduceApplicableFragments apps) vc self [] hnd2
        simp only [List.map_nil, List.nil_append] at heq
        simp only [if_neg he] at hres
        rw [heq] at hres
        dsimp only at hres
        simp only [Prod.mk.injEq, SelectionSetOrFragment.selectionSet.injEq] at hres
        have hksub : (keysOf n2.selections).Sublist (keysOf self.selections) := hk
        have hall : addAllLocal (accepted.map (fun f => mkSpreadFromFragment f []))
            n2.selections =
            accepted.map (fun f => mkSpreadFromFragment f []) ++ n2.selections := by
          apply addAllLocal_append
          · intro k hkmem
            have hks : k.isSpreadKey = false :=
              hnospread k (hksub.subset hkmem)
            rw [keysOf_map_spread]
            intro habs
            simp only [List.mem_map] at habs
            obtain ⟨g, _, hgk⟩ := habs
            rw [← hgk] at hks
            simp [SelectionKey.isSpreadKey] at hks
          · exact List.Nodup.sublist hksub hkeys
        refine ⟨accepted, n2.selections, ?_, ?_, hksub⟩
        · rw [← hres.1]
          simp only [hall]
        · have hsub2 : (accepted.map Fragment.name).Sublist
              ((reduceApplicableFragments apps).map
                (fun p : Fragment × FragmentRestrictionAtType => p.1.name)) := by
            rw [← happs2names]
            exact hsub
          exact hsub2.trans happs2


/-- Witness for C9: on `{ id a b }` at `T` with catalog `[TFrag on T
{ id a }]`, the rewrite yields the spread `...TFrag` first, followed by the
uncovered field `b`. -/
theorem c9_spreads_then_remainder_witness :
    ∃ (accepted : List Fragment) (remainder : List Selection),
      c9Out.selections =
        accepted.map (fun f => mkSpreadFromFragment f []) ++ remainder ∧
      (accepted.map Fragment.name).Sublist
        ((getAllMayApplyDirectlyAtType schemaQ c9Ctx.fragments "T").map
          Fragment.name) ∧
      (keysOf remainder).Sublist (keysOf c9SelfSet.selections) := by
  have hsel : resultIsSelSet c9Result = true := by decide
  have hres : SelectionSet.tryApplyFragments c9SelfSet schemaQ "T" c9Ctx c9V
      .forFieldSelection = (.selectionSet c9Out, c9V2) := by
    have hr : c9Result = (.selectionSet c9Out, c9V2) := by
      cases hr : c9Result with
      | mk a b =>
          cases a with
          | selectionSet s => simp [c9Out, c9V2, hr]
          | fragment f => rw [hr] at hsel; simp [resultIsSelSet] at hsel
    simpa [c9Result] using hr
  exact c9_spreads_then_remainder schemaQ c9SelfSet "T" c9Ctx c9V
    .forFieldSelection c9Out c9V2 (by decide) (by decide) (by decide) hres


/-! ## Counter-arithmetic lemmas (C8) -/

/-- The empty counter holds zeroes. -/
theorem getCount_nil (x : String) : getCount [] x = 0 := rfl

/-- `getCount` on a cons cell. -/
theorem getCount_cons (a : String × Nat) (rest : List (String × Nat)) (x : String) :
    getCount (a :: rest) x = if a.1 = x then a.2 else getCount rest x := by
  obtain ⟨n, k⟩ := a
  by_cases h : n = x
  · simp [getCount, List.find?_cons_of_pos, h]
  · have : ((n, k).1 == x) = false := by simpa using h
    simp [getCount, List.find?_cons_of_neg, this, h]

/-- `bumpCount` adds to exactly the bumped name. -/
theorem getCount_bumpCount (u : List (String × Nat)) (n : String) (c : Nat)
    (x : String) :
    getCount (bumpCount u n c) x = getCount u x + (if n = x then c else 0) := by
  induction u with
  | nil =>
      by_cases h : n = x <;> simp [bumpCount, getCount_cons, getCount_nil, h]
  | cons a rest ih =>
      obtain ⟨an, ak⟩ := a
      by_cases han : an = n
      · subst han
        simp only [bumpCount, if_pos rfl]
        by_cases h : an = x <;> simp [getCount_cons, h]
      · simp only [bumpCount, if_neg han]
        by_cases h : an = x
        · subst h
          have : ¬ n = an := fun hh => han hh.symm
          simp [getCount_cons, this, ih]
        · simp [getCount_cons, h, ih]

/-- Additivity of usage collection: collecting on top of `u` adds exactly
the counts collected from scratch. -/
theorem collect_add_bounded (N : Nat) :
    (∀ s : Selection, s.size ≤ N → ∀ u x,
      getCount (s.collectUsages u) x = getCount u x + getCount (s.collectUsages []) x) ∧
    (∀ sels : List Selection, sizeList sels ≤ N → ∀ u x,
      getCount (collectUsagesList sels u) x =
        getCount u x + getCount (collectUsagesList sels []) x) := by
  induction N with
  | zero =>
      constructor
      · intro s hs
        have := s.size_pos
        omega
      · intro sels hs
        cases sels with
        | nil => intro u x; simp [collectUsagesList, getCount_nil]
        | cons a rest =>
            have := a.size_pos
            simp [sizeList] at hs
  | succ N ih =>
      constructor
      · intro s hs u x
        cases s with
        | field d sub =>
            cases sub with
            | none => simp [Selection.collectUsages, getCount_nil]
            | some p =>
                obtain ⟨ty, sels⟩ := p
                simp only [Selection.collectUsages]
                exact ih.2 sels (by simp [Selection.size] at hs; omega) u x
        | inlineFragment d ty sels =>
            simp only [Selection.collectUsages]
            exact ih.2 sels (by simp [Selection.size] at hs; omega) u x
        | fragmentSpread d ty sels =>
            simp only [Selection.collectUsages]
            rw [getCount_bumpCount, getCount_bumpCount, getCount_nil]
            omega
      · intro sels hs u x
        cases sels with
        | nil => simp [collectUsagesList, getCount_nil]
        | cons s rest =>
            have hsz : s.size ≤ N ∧ sizeList rest ≤ N := by
              simp [sizeList] at hs
              omega
            simp only [collectUsagesList]
            rw [ih.2 rest hsz.2 (s.collectUsages u) x,
              ih.2 rest hsz.2 (s.collectUsages []) x,
              ih.1 s hsz.1 u x]
            omega

/-- Additivity of usage collection over a child list. -/
theorem collectList_add (sels : List Selection) (u : List (String × Nat))
    (x : String) :
    getCount (collectUsagesList sels u) x =
      getCount u x + getCount (collectUsagesList sels []) x :=
  (collect_add_bounded (sizeList sels)).2 sels (Nat.le_refl _) u x

/-- Names recorded by `bumpCount`. -/
theorem bumpCount_names (u : List (String × Nat)) (n : String) (c : Nat) :
    (bumpCount u n c).map Prod.fst = u.map Prod.fst ∨
      (bumpCount u n c).map Prod.fst = u.map Prod.fst ++ [n] ∧
        n ∉ u.map Prod.fst := by
  induction u with
  | nil => right; simp [bumpCount]
  | cons a rest ih =>
      obtain ⟨an, ak⟩ := a
      by_cases h : an = n
      · left; simp [bumpCount, h]
      · rcases ih with h1 | ⟨h1, h2⟩
        · left; simp [bumpCount, h, h1]
        · right
          constructor
          · simp [bumpCount, h, h1]
          · simp only [List.map_cons, List.mem_cons]
            push_neg
            exact ⟨fun hh => h hh.symm, h2⟩

/-- `bumpCount` keeps counter names pairwise distinct. -/
theorem bumpCount_nodup {u : List (String × Nat)} (hu : (u.map Prod.fst).Nodup)
    (n : String) (c : Nat) : ((bumpCount u n c).map Prod.fst).Nodup := by
  rcases bumpCount_names u n c with h | ⟨h, hmem⟩
  · rw [h]; exact hu
  · rw [h]
    rw [List.nodup_append]
    exact ⟨hu, List.nodup_singleton n, by
      intro a ha hb
      simp only [List.mem_singleton] at hb
      exact hmem (hb ▸ ha)⟩

/-- Usage collection keeps counter names pairwise distinct. -/
theorem collect_nodup_bounded (N : Nat) :
    (∀ s : Selection, s.size ≤ N → ∀ u, (u.map Prod.fst).Nodup →
      ((s.collectUsages u).map Prod.fst).Nodup) ∧
    (∀ sels : List Selection, sizeList sels ≤ N → ∀ u, (u.map Prod.fst).Nodup →
      ((collectUsagesList sels u).map Prod.fst).Nodup) := by
  induction N with
  | zero =>
      constructor
      · intro s hs
        have := s.size_pos
        omega
      · intro sels hs u hu
        cases sels with
        | nil => exact hu
        | cons a rest =>
            have := a.size_pos
            simp [sizeList] at hs
  | succ N ih =>
      constructor
      · intro s hs u hu
        cases s with
        | field d sub =>
            cases sub with
            | none => exact hu
            | some p =>
                obtain ⟨ty, sels⟩ := p
                exact ih.2 sels (by simp [Selection.size] at hs; omega) u hu
        | inlineFragment d ty sels =>
            exact ih.2 sels (by simp [Selection.size] at hs; omega) u hu
        | fragmentSpread d ty sels =>
            exact bumpCount_nodup hu _ _
      · intro sels hs u hu
        cases sels with
        | nil => exact hu
        | cons s rest =>
            have hsz : s.size ≤ N ∧ sizeList rest ≤ N := by
              simp [sizeList] at hs
              omega
            exact ih.2 rest hsz.2 _ (ih.1 s hsz.1 u hu)

/-- `pairSum` vanishes on absent names. -/
theorem pairSum_zero_of_not_mem {u : List (String × Nat)} {x : String}
    (h : x ∉ u.map Prod.fst) : pairSum u x = 0 := by
  induction u with
  | nil => rfl
  | cons a rest ih =>
      simp only [List.map_cons, List.mem_cons] at h
      push_neg at h
      simp only [pairSum]
      rw [if_neg (fun hh => h.1 hh.symm), ih h.2]

/-- On name-distinct counters, `pairSum` equals `getCount`. -/
theorem pairSum_eq_getCount {u : List (String × Nat)}
    (hu : (u.map Prod.fst).Nodup) (x : String) : pairSum u x = getCount u x := by
  induction u with
  | nil => rfl
  | cons a rest ih =>
      obtain ⟨n, k⟩ := a
      simp only [List.map_cons, List.nodup_cons] at hu
      simp only [pairSum, getCount_cons]
      by_cases h : n = x
      · rw [if_pos h, if_pos h]
        rw [pairSum_zero_of_not_mem (h ▸ hu.1)]
        omega
      · rw [if_neg h, if_neg h, ih hu.2]
        omega

/-- Effect of the `update_usages` fold on any counter. -/
theorem foldl_bump_getCount (c : Nat) (x : String) :
    ∀ (w : List (String × Nat)) (u : List (String × Nat)),
      getCount (w.foldl (fun acc p => bumpCount acc p.1 (p.2 * c)) u) x =
        getCount u x + pairSum w x * c := by
  intro w
  induction w with
  | nil => intro u; simp [pairSum]
  | cons p rest ih =>
      intro u
      obtain ⟨pn, pk⟩ := p
      simp only [List.foldl_cons]
      rw [ih, getCount_bumpCount]
      simp only [pairSum]
      by_cases h : pn = x
      · rw [if_pos h, if_pos h, Nat.add_mul]
        omega
      · rw [if_neg h, if_neg h]
        simp

/-- `update_usages` adds the fragment's body count times its usage count. -/
theorem updateUsages_getCount (u : List (String × Nat)) (f : Fragment)
    (c : Nat) (x : String) :
    getCount (updateUsages u f c) x = getCount u x + f.bodyCount x * c := by
  unfold updateUsages
  rw [foldl_bump_getCount]
  congr 1
  rw [pairSum_eq_getCount]
  · rfl
  · exact (collect_nodup_bounded (sizeList f.selectionSet.selections)).2 _
      (Nat.le_refl _) [] (by simp)

/-- Collecting a fragment's body usages adds its body counts. -/
theorem collectBody_getCount (u : List (String × Nat)) (f : Fragment)
    (x : String) :
    getCount (f.collectUsedFragmentNames u) x = getCount u x + f.bodyCount x := by
  unfold Fragment.collectUsedFragmentNames Fragment.bodyCount
  rw [collectList_add]
  rfl

/-- Selections whose spreads all avoid `x` contribute nothing to `x`'s
count. -/
theorem spreadsOk_count_unchanged_bounded (N : Nat) (P : String → Bool)
    (x : String) (hx : P x = false) :
    (∀ s : Selection, s.size ≤ N → spreadsOkSel P s = true → ∀ u,
      getCount (s.collectUsages u) x = getCount u x) ∧
    (∀ sels : List Selection, sizeList sels ≤ N → spreadsOkList P sels = true → ∀ u,
      getCount (collectUsagesList sels u) x = getCount u x) := by
  induction N with
  | zero =>
      constructor
      · intro s hs
        have := s.size_pos
        omega
      · intro sels hs hok u
        cases sels with
        | nil => rfl
        | cons a rest =>
            have := a.size_pos
            simp [sizeList] at hs
  | succ N ih =>
      constructor
      · intro s hs hok u
        cases s with
        | field d sub =>
            cases sub with
            | none => rfl
            | some p =>
                obtain ⟨ty, sels⟩ := p
                simp only [spreadsOkSel] at hok
                exact ih.2 sels (by simp [Selection.size] at hs; omega) hok u
        | inlineFragment d ty sels =>
            simp only [spreadsOkSel] at hok
            exact ih.2 sels (by simp [Selection.size] at hs; omega) hok u
        | fragmentSpread d ty sels =>
            simp only [spreadsOkSel, Bool.and_eq_true] at hok
            simp only [Selection.collectUsages]
            rw [getCount_bumpCount]
            have : ¬ d.fragmentName = x := by
              intro hh
              rw [hh, hx] at hok
              exact absurd hok.1 (by simp)
            rw [if_neg this]
            omega
      · intro sels hs hok u
        cases sels with
        | nil => rfl
        | cons s rest =>
            simp only [spreadsOkList, Bool.and_eq_true] at hok
            have hsz : s.size ≤ N ∧ sizeList rest ≤ N := by
              simp [sizeList] at hs
              omega
            simp only [collectUsagesList]
            rw [ih.2 rest hsz.2 hok.2 _, ih.1 s hsz.1 hok.1 u]

/-- A fragment respecting the order `A` never mentions a name that is not
strictly before its own name in `A`. -/
theorem fragOk_bodyCount_zero {A : List String} {f : Fragment}
    (h : fragOk A f = true) {x : String} (hx : beforeIn A x f.name = false) :
    f.bodyCount x = 0 := by
  unfold Fragment.bodyCount Fragment.collectUsedFragmentNames
  rw [(spreadsOk_count_unchanged_bounded (sizeList f.selectionSet.selections)
    _ x hx).2 _ (Nat.le_refl _) h []]
  rfl


/-! ## Order lemmas for the catalog name list (C8) -/

/-- Nothing is strictly before itself. -/
theorem beforeIn_self (A : List String) (x : String) : beforeIn A x x = false := by
  induction A with
  | nil => rfl
  | cons a rest ih =>
      by_cases h : a = x <;> simp [beforeIn, h, ih]

/-- `beforeIn` is asymmetric. -/
theorem beforeIn_asymm {A : List String} {x y : String}
    (h : beforeIn A x y = true) : beforeIn A y x = false := by
  induction A with
  | nil => simp [beforeIn] at h
  | cons a rest ih =>
      by_cases hay : a = y
      · simp [beforeIn, hay] at h
      · by_cases hax : a = x
        · simp [beforeIn, hax, fun hh => hay (hax ▸ hh)]
        · simp only [beforeIn] at h ⊢
          rw [if_neg (by simpa using hay)] at h
          rw [if_neg (by simpa using hax)]
          simp only [Bool.or_eq_true] at h
          rcases h with h | h
          · exact absurd (by simpa using h) hax
          · simp [hay, ih h]

/-- A two-element sublist of a duplicate-free list is ordered by
`beforeIn`. -/
theorem beforeIn_of_sublist {A : List String} (hnd : A.Nodup) {x y : String}
    (hxy : x ≠ y) (hsub : [x, y].Sublist A) : beforeIn A x y = true := by
  induction A with
  | nil => simp at hsub
  | cons a rest ih =>
      simp only [List.nodup_cons] at hnd
      cases hsub with
      | cons _ h' =>
          have hay : a ≠ y := by
            intro hh
            have : y ∈ rest := h'.subset (by simp)
            exact hnd.1 (hh ▸ this)
          simp only [beforeIn]
          rw [if_neg (by simpa using hay)]
          simp [ih hnd.2 h']
      | cons₂ _ h' =>
          simp only [beforeIn]
          rw [if_neg (by simpa using hxy)]
          simp

/-! ## Body-sum lemmas (C8) -/

/-- `listBodySum` over an append. -/
theorem listBodySum_append (l1 l2 : List Fragment) (x : String) :
    listBodySum (l1 ++ l2) x = listBodySum l1 x + listBodySum l2 x := by
  induction l1 with
  | nil => simp [listBodySum]
  | cons g rest ih => simp [listBodySum, ih]; omega

/-- `listBodySum` is invariant under reversal. -/
theorem listBodySum_reverse (l : List Fragment) (x : String) :
    listBodySum l.reverse x = listBodySum l x := by
  induction l with
  | nil => rfl
  | cons g rest ih =>
      simp only [List.reverse_cons]
      rw [listBodySum_append, ih]
      simp [listBodySum]
      omega

/-- `listBodySum` vanishes when no body mentions the name. -/
theorem listBodySum_zero {l : List Fragment} {x : String}
    (h : ∀ g ∈ l, g.bodyCount x = 0) : listBodySum l x = 0 := by
  induction l with
  | nil => rfl
  | cons g rest ih =>
      simp only [listBodySum]
      rw [h g (by simp), ih (fun g hg => h g (by simp [hg]))]


/-! ## The counting pass at a fix-point (C8) -/

/-- The counting pass is the reverse fold of `countStep`. -/
theorem countPass_eq_fold (m : Nat) (cat : NamedFragments)
    (u : List (String × Nat)) :
    countPass m cat u = cat.reverse.foldl (countStep m) u := rfl

/-- `countStep` keeps the visited fragment's own count unchanged, provided
the fragment does not mention itself. -/
theorem countStep_self {m : Nat} {u : List (String × Nat)} {f : Fragment}
    (hself : f.bodyCount f.name = 0) :
    getCount (countStep m u f) f.name = getCount u f.name := by
  by_cases hc : m ≤ getCount u f.name
  · simp only [countStep, if_pos hc]
    rw [collectBody_getCount, hself]
    omega
  · simp only [countStep, if_neg hc]
    rw [updateUsages_getCount, hself]
    simp

/-- The reverse fold of `reduce_inner`, on a visit-order list `L`: if no
later-visited fragment mentions an earlier-visited one, no fragment mentions
itself, and every visited fragment ends with a count of at least `m`, then
every final count is the initial count plus one full body contribution per
visited fragment. -/
theorem countFold_spec (m : Nat) :
    ∀ (L : List Fragment) (u : List (String × Nat)),
      List.Pairwise (fun f g => g.bodyCount f.name = 0) L →
      (∀ f ∈ L, f.bodyCount f.name = 0) →
      (∀ g ∈ L, m ≤ getCount (L.foldl (countStep m) u) g.name) →
      ∀ x, getCount (L.foldl (countStep m) u) x =
        getCount u x + listBodySum L x := by
  intro L
  induction L with
  | nil =>
      intro u _ _ _ x
      simp [listBodySum]
  | cons f L ih =>
      intro u hpair hself hall x
      simp only [List.pairwise_cons] at hpair
      have hselfF : f.bodyCount f.name = 0 := hself f (by simp)
      have htailself : ∀ g ∈ L, g.bodyCount g.name = 0 :=
        fun g hg => hself g (by simp [hg])
      have htailall : ∀ g ∈ L,
          m ≤ getCount (L.foldl (countStep m) (countStep m u f)) g.name := by
        intro g hg
        have := hall g (by simp [hg])
        simpa using this
      have htail := ih (countStep m u f) hpair.2 htailself htailall
      have hvisitF : getCount ((f :: L).foldl (countStep m) u) f.name =
          getCount u f.name := by
        simp only [List.foldl_cons]
        rw [htail f.name, listBodySum_zero hpair.1, countStep_self hselfF]
        omega
      have hc : m ≤ getCount u f.name := by
        have := hall f (by simp)
        rw [hvisitF] at this
        exact this
      have hstep : countStep m u f = f.collectUsedFragmentNames u := by
        simp [countStep, hc]
      simp only [List.foldl_cons]
      rw [htail x, hstep, collectBody_getCount]
      simp only [listBodySum]
      omega


/-- `reduce_inner` either returns its input unchanged or strictly shrinks
the catalog. -/
theorem reduceInner_cases (cat : NamedFragments) (ss : SelectionSet) (m : Nat)
    (sch : Schema) :
    reduceInner cat ss m sch = (cat, ss) ∨
      (reduceInner cat ss m sch).1.length < cat.length := by
  unfold reduceInner
  by_cases h1 : (ss.usedFragments).isEmpty
  · simp only [h1, if_true]
    cases hc : cat with
    | nil => left; rfl
    | cons a rest => right; simp
  · simp only [h1, Bool.false_eq_true, if_false]
    by_cases h2 : (cat.filter (fun f =>
        m ≤ getCount (countPass m cat ss.usedFragments) f.name)).length = cat.length
    · left
      simp [h2]
    · right
      have hle := List.length_filter_le (fun f =>
        decide (m ≤ getCount (countPass m cat ss.usedFragments) f.name)) cat
      simp only [beq_iff_eq, if_neg h2]
      simp only [List.length_map]
      omega

/-- At a fix-point of `reduce_inner` (catalog returned unchanged), every
retained fragment is counted at least `m` times across the selection set
and one pass over the retained bodies. -/
theorem reduceInner_fixpoint_counts (cat : NamedFragments) (ss : SelectionSet)
    (m : Nat) (sch : Schema)
    (hD1 : ∀ f ∈ cat, f.bodyCount f.name = 0)
    (hD2 : List.Pairwise (fun g h => g.bodyCount h.name = 0) cat)
    (hne : cat ≠ [])
    (hfix : reduceInner cat ss m sch = (cat, ss)) :
    ∀ f ∈ cat, m ≤ getCount (ss.usedFragments) f.name + listBodySum cat f.name := by
  unfold reduceInner at hfix
  by_cases h1 : (ss.usedFragments).isEmpty
  · simp only [h1, if_true, Prod.mk.injEq] at hfix
    exact absurd hfix.1.symm hne
  · simp only [h1, Bool.false_eq_true, if_false] at hfix
    by_cases h2 : (cat.filter (fun f =>
        m ≤ getCount (countPass m cat ss.usedFragments) f.name)).length = cat.length
    · have hall : ∀ f ∈ cat,
          m ≤ getCount (countPass m cat ss.usedFragments) f.name := by
        have heq : cat.filter (fun f =>
            m ≤ getCount (countPass m cat ss.usedFragments) f.name) = cat :=
          (List.filter_sublist cat).eq_of_length h2
        intro f hf
        have := List.filter_eq_self.mp heq f hf
        simpa using this
      intro f hf
      have hpairRev : List.Pairwise (fun f g => g.bodyCount f.name = 0)
          cat.reverse := by
        rw [List.pairwise_reverse]
        exact hD2
      have hselfRev : ∀ g ∈ cat.reverse, g.bodyCount g.name = 0 :=
        fun g hg => hD1 g (List.mem_reverse.mp hg)
      have hallRev : ∀ g ∈ cat.reverse,
          m ≤ getCount (cat.reverse.foldl (countStep m) ss.usedFragments) g.name := by
        intro g hg
        have := hall g (List.mem_reverse.mp hg)
        rwa [countPass_eq_fold] at this
      have hcp := countFold_spec m cat.reverse ss.usedFragments hpairRev
        hselfRev hallRev f.name
      have hcount := hall f hf
      rw [countPass_eq_fold, hcp, listBodySum_reverse] at hcount
      exact hcount
    · exfalso
      simp only [beq_iff_eq, if_neg h2, Prod.mk.injEq] at hfix
      have hlen := congrArg List.length hfix.1
      simp only [List.length_map] at hlen
      exact h2 hlen


/-! ## Spread-name preservation through the rewriting helpers (C8) -/

/-- `spreadsOkList` over an append. -/
theorem spreadsOkList_append (P : String → Bool) (l1 l2 : List Selection) :
    spreadsOkList P (l1 ++ l2) = (spreadsOkList P l1 && spreadsOkList P l2) := by
  induction l1 with
  | nil => simp [spreadsOkList]
  | cons s rest ih => simp [spreadsOkList, ih, Bool.and_assoc]

/-- The local-add merge family only rearranges existing selections, so it
preserves the allowed-spread-name invariant, at every fuel. -/
theorem spreadsOk_merge_bounded (P : String → Bool) :
    ∀ fuel : Nat,
      (∀ a b, spreadsOkSel P a = true → spreadsOkSel P b = true →
        spreadsOkSel P (mergeSelFuel fuel a b) = true) ∧
      (∀ t b, spreadsOkList P t = true → spreadsOkSel P b = true →
        spreadsOkList P (addOneLocalFuel fuel t b) = true) ∧
      (∀ t n, spreadsOkList P t = true → spreadsOkList P n = true →
        spreadsOkList P (addAllLocalFuel fuel t n) = true) := by
  intro fuel
  induction fuel with
  | zero =>
      refine ⟨fun a b ha _ => ha, fun t b ht _ => ht, fun t n ht _ => ht⟩
  | succ f ih =>
      refine ⟨?_, ?_, ?_⟩
      · intro a b ha hb
        cases a with
        | field ad asub =>
            cases asub with
            | none => exact ha
            | some ap =>
                obtain ⟨aty, asels⟩ := ap
                cases b with
                | field bd bsub =>
                    cases bsub with
                    | none => exact ha
                    | some bp =>
                        obtain ⟨bty, bsels⟩ := bp
                        simp only [spreadsOkSel] at ha hb ⊢
                        simp only [mergeSelFuel, spreadsOkSel]
                        exact ih.2.2 asels bsels ha hb
                | inlineFragment _ _ _ => exact ha
                | fragmentSpread _ _ _ => exact ha
        | inlineFragment ad aty asels =>
            cases b with
            | field _ _ => exact ha
            | inlineFragment bd bty bsels =>
                simp only [spreadsOkSel] at ha hb ⊢
                simp only [mergeSelFuel, spreadsOkSel]
                exact ih.2.2 asels bsels ha hb
            | fragmentSpread _ _ _ => exact ha
        | fragmentSpread ad aty asels =>
            cases b with
            | field _ _ => exact ha
            | inlineFragment _ _ _ => exact ha
            | fragmentSpread bd bty bsels =>
                simp only [spreadsOkSel, Bool.and_eq_true] at ha hb ⊢
                simp only [mergeSelFuel, spreadsOkSel, Bool.and_eq_true]
                exact ⟨ha.1, ih.2.2 asels bsels ha.2 hb.2⟩
      · intro t b ht hb
        cases t with
        | nil =>
            simp only [addOneLocalFuel, spreadsOkList, Bool.and_eq_true]
            exact ⟨hb, trivial⟩
        | cons s rest =>
            simp only [spreadsOkList, Bool.and_eq_true] at ht
            simp only [addOneLocalFuel]
            by_cases hkey : s.key = b.key
            · rw [if_pos hkey]
              simp only [spreadsOkList, Bool.and_eq_true]
              exact ⟨ih.1 s b ht.1 hb, ht.2⟩
            · rw [if_neg hkey]
              simp only [spreadsOkList, Bool.and_eq_true]
              exact ⟨ht.1, ih.2.1 rest b ht.2 hb⟩
      · intro t n ht hn
        cases n with
        | nil => simpa [addAllLocalFuel] using ht
        | cons s rest =>
            simp only [spreadsOkList, Bool.and_eq_true] at hn
            simp only [addAllLocalFuel]
            exact ih.2.2 _ rest (ih.2.1 t s ht hn.1) hn.2

/-- `add_local_selection_set` preserves the allowed-spread-name
invariant. -/
theorem spreadsOk_addAllLocal (P : String → Bool) (t n : List Selection)
    (ht : spreadsOkList P t = true) (hn : spreadsOkList P n = true) :
    spreadsOkList P (addAllLocal t n) = true :=
  (spreadsOk_merge_bounded P (mergeFuel t n)).2.2 t n ht hn

/-- Flattening preserves the allowed-spread-name invariant. -/
theorem spreadsOk_flatten_bounded (P : String → Bool) (sch : Schema) :
    ∀ N : Nat,
      (∀ (s : Selection) (parent : TypeName), s.size ≤ N →
        spreadsOkSel P s = true →
        spreadsOkList P (flattenSel sch parent s) = true) ∧
      (∀ (sels : List Selection) (parent : TypeName), sizeList sels ≤ N →
        spreadsOkList P sels = true →
        spreadsOkList P (flattenList sch parent sels) = true) := by
  intro N
  induction N with
  | zero =>
      constructor
      · intro s parent hs
        have := s.size_pos
        omega
      · intro sels parent hs hok
        cases sels with
        | nil => exact hok
        | cons a rest =>
            have := a.size_pos
            simp [sizeList] at hs
  | succ N ih =>
      constructor
      · intro s parent hs hok
        cases s with
        | field d sub =>
            cases sub with
            | none => simp [flattenSel, spreadsOkList, spreadsOkSel]
            | some p =>
                obtain ⟨ty, sels⟩ := p
                simp only [spreadsOkSel] at hok
                simp only [flattenSel, spreadsOkList, spreadsOkSel, Bool.and_eq_true]
                exact ⟨ih.2 sels ty (by simp [Selection.size] at hs; omega) hok, trivial⟩
        | inlineFragment d ty sels =>
            simp only [spreadsOkSel] at hok
            have hsz : sizeList sels ≤ N := by simp [Selection.size] at hs; omega
            simp only [flattenSel]
            by_cases hd : deadBranch sch d.typeCondition parent
            · simp [hd, spreadsOkList]
            · rw [if_neg hd]
              by_cases htr : triviallySatisfied sch d.typeCondition parent ∧
                  d.directives.isEmpty = true
              · rw [if_pos (by simp [htr.1, htr.2])]
                exact ih.2 sels parent hsz hok
              · rw [if_neg (by
                  intro hh
                  simp only [Bool.and_eq_true] at hh
                  exact htr ⟨hh.1, hh.2⟩)]
                by_cases hemp : (flattenList sch ty sels).isEmpty
                · simp [hemp, spreadsOkList]
                · rw [if_neg hemp]
                  simp only [spreadsOkList, spreadsOkSel, Bool.and_eq_true]
                  exact ⟨ih.2 sels ty hsz hok, trivial⟩
        | fragmentSpread d ty sels =>
            simpa [flattenSel, spreadsOkList, Bool.and_eq_true] using hok
      · intro sels parent hs hok
        cases sels with
        | nil => exact hok
        | cons s rest =>
            simp only [spreadsOkList, Bool.and_eq_true] at hok
            have hsz : s.size ≤ N ∧ sizeList rest ≤ N := by
              simp [sizeList] at hs; omega
            simp only [flattenList]
            exact spreadsOk_addAllLocal P _ _
              (ih.1 s parent hsz.1 hok.1) (ih.2 rest parent hsz.2 hok.2)

/-- Retaining fragments (expanding the dropped ones) preserves the
allowed-spread-name invariant: every spread of the output was already a
spread — active or recorded — of the input. -/
theorem spreadsOk_retain_bounded (P : String → Bool) (keep : NamedFragments) :
    ∀ N : Nat,
      (∀ (s : Selection) (parent : TypeName), s.size ≤ N →
        spreadsOkSel P s = true →
        spreadsOkList P (retainSel keep parent s) = true) ∧
      (∀ (sels : List Selection) (ty : TypeName), sizeList sels ≤ N →
        spreadsOkList P sels = true →
        spreadsOkList P (retainList keep ty sels) = true) := by
  intro N
  induction N with
  | zero =>
      constructor
      · intro s parent hs
        have := s.size_pos
        omega
      · intro sels ty hs hok
        cases sels with
        | nil => exact hok
        | cons a rest =>
            have := a.size_pos
            simp [sizeList] at hs
  | succ N ih =>
      constructor
      · intro s parent hs hok
        cases s with
        | field d sub =>
            cases sub with
            | none => simp [retainSel, spreadsOkList, spreadsOkSel]
            | some p =>
                obtain ⟨ty, sels⟩ := p
                simp only [spreadsOkSel] at hok
                simp only [retainSel, spreadsOkList, spreadsOkSel, Bool.and_eq_true]
                refine ⟨?_, trivial⟩
                exact spreadsOk_addAllLocal P [] _ rfl
                  (ih.2 sels ty (by simp [Selection.size] at hs; omega) hok)
        | inlineFragment d ty sels =>
            simp only [spreadsOkSel] at hok
            simp only [retainSel, spreadsOkList, spreadsOkSel, Bool.and_eq_true]
            refine ⟨?_, trivial⟩
            exact spreadsOk_addAllLocal P [] _ rfl
              (ih.2 sels ty (by simp [Selection.size] at hs; omega) hok)
        | fragmentSpread d ty sels =>
            simp only [spreadsOkSel, Bool.and_eq_true] at hok
            have hsz : sizeList sels ≤ N := by simp [Selection.size] at hs; omega
            simp only [retainSel]
            by_cases hkeep : keep.any (fun f => f.name == d.fragmentName)
            · rw [if_pos hkeep]
              simp only [spreadsOkList, spreadsOkSel, Bool.and_eq_true]
              exact ⟨⟨hok.1, hok.2⟩, trivial⟩
            · rw [if_neg hkeep]
              have hexp : spreadsOkList P
                  (addAllLocal [] (retainList keep ty sels)) = true :=
                spreadsOk_addAllLocal P [] _ rfl (ih.2 sels ty hsz hok.2)
              by_cases hsp : parent == ty ∧ d.directives.isEmpty = true
              · rw [if_pos (by simp [hsp.1, hsp.2])]
                exact hexp
              · rw [if_neg (by
                  intro hh
                  simp only [Bool.and_eq_true] at hh
                  exact hsp ⟨hh.1, hh.2⟩)]
                simpa [spreadsOkList, spreadsOkSel, Bool.and_eq_true] using hexp
      · intro sels ty hs hok
        cases sels with
        | nil => exact hok
        | cons s rest =>
            simp only [spreadsOkList, Bool.and_eq_true] at hok
            have hsz : s.size ≤ N ∧ sizeList rest ≤ N := by
              simp [sizeList] at hs; omega
            simp only [retainList, spreadsOkList_append, Bool.and_eq_true]
            exact ⟨ih.1 s ty hsz.1 hok.1, ih.2 rest ty hsz.2 hok.2⟩


/-- From the order bookkeeping: no fragment mentions itself, and earlier
fragments never mention later names. -/
theorem catalog_noref {A : List String} {cat : NamedFragments}
    (H1 : ∀ f ∈ cat, fragOk A f = true)
    (H2 : (cat.map Fragment.name).Sublist A) (H3 : A.Nodup) :
    (∀ f ∈ cat, f.bodyCount f.name = 0) ∧
      List.Pairwise (fun g h => g.bodyCount h.name = 0) cat := by
  constructor
  · intro f hf
    exact fragOk_bodyCount_zero (H1 f hf) (beforeIn_self A f.name)
  · rw [List.pairwise_iff_forall_sublist]
    intro g h hsub
    have hg : g ∈ cat := hsub.subset (by simp)
    have hnames : [g.name, h.name].Sublist A := by
      have := hsub.map Fragment.name
      exact this.trans H2
    by_cases heq : h.name = g.name
    · exact fragOk_bodyCount_zero (H1 g hg) (heq ▸ beforeIn_self A g.name)
    · have hbefore : beforeIn A g.name h.name = true :=
        beforeIn_of_sublist H3 (fun hh => heq hh.symm) hnames
      exact fragOk_bodyCount_zero (H1 g hg) (beforeIn_asymm hbefore)

/-- `reduce_inner` keeps the catalog's name order and its fragments'
order-respecting bodies: the surviving fragments are a filtered subsequence
with rewritten bodies whose spreads still point strictly backwards. -/
theorem reduceInner_preserves (A : List String) (cat : NamedFragments)
    (ss : SelectionSet) (m : Nat) (sch : Schema)
    (H1 : ∀ f ∈ cat, fragOk A f = true)
    (H2 : (cat.map Fragment.name).Sublist A) :
    (∀ f ∈ (reduceInner cat ss m sch).1, fragOk A f = true) ∧
      (((reduceInner cat ss m sch).1.map Fragment.name).Sublist A) := by
  unfold reduceInner
  by_cases h1 : (ss.usedFragments).isEmpty
  · simp [h1]
  · simp only [h1, Bool.false_eq_true, if_false]
    by_cases h2 : (cat.filter (fun f =>
        m ≤ getCount (countPass m cat ss.usedFragments) f.name)).length = cat.length
    · simp only [beq_iff_eq, h2, if_true]
      exact ⟨H1, H2⟩
    · simp only [beq_iff_eq, if_neg h2]
      have hkeptsub : (cat.filter (fun f =>
          m ≤ getCount (countPass m cat ss.usedFragments) f.name)).Sublist cat :=
        List.filter_sublist cat
      constructor
      · intro f' hf'
        simp only [List.mem_map] at hf'
        obtain ⟨f, hf, hupd⟩ := hf'
        have hfcat : f ∈ cat := hkeptsub.subset hf
        have hbody := H1 f hfcat
        unfold fragOk at hbody ⊢
        rw [← hupd]
        have hretain : spreadsOkList (fun n => beforeIn A n f.name)
            ((f.selectionSet.retainFragments (cat.filter (fun f =>
              m ≤ getCount (countPass m cat ss.usedFragments) f.name))).selections)
            = true := by
          unfold SelectionSet.retainFragments
          exact spreadsOk_addAllLocal _ [] _ rfl
            ((spreadsOk_retain_bounded _ _
              (sizeList f.selectionSet.selections)).2 _ _ (Nat.le_refl _) hbody)
        unfold SelectionSet.flattenUnnecessaryFragments
        exact (spreadsOk_flatten_bounded _ sch
          (sizeList ((f.selectionSet.retainFragments _).selections))).2
          _ _ (Nat.le_refl _) hretain
      · rw [List.map_map]
        exact (hkeptsub.map _).trans H2


/-- Invariant run of the reduce loop: with enough fuel and an
order-respecting catalog, every fragment of the returned catalog is counted
at least `m` times across the returned selection set and one pass over the
returned bodies. -/
theorem reduceLoop_counts (sch : Schema) (m : Nat) (A : List String)
    (hA : A.Nodup) :
    ∀ (fuel : Nat) (cat : NamedFragments) (ss : SelectionSet),
      cat.length < fuel →
      (∀ f ∈ cat, fragOk A f = true) →
      ((cat.map Fragment.name).Sublist A) →
      ∀ f ∈ (reduceLoop sch m fuel cat ss).1,
        m ≤ getCount ((reduceLoop sch m fuel cat ss).2.usedFragments) f.name +
            listBodySum (reduceLoop sch m fuel cat ss).1 f.name := by
  intro fuel
  induction fuel with
  | zero =>
      intro cat ss hf
      omega
  | succ fuel ih =>
      intro cat ss hf H1 H2
      by_cases hz : cat.length = 0
      · have hcat : cat = [] := List.length_eq_zero.mp hz
        subst hcat
        simp [reduceLoop]
      · rcases reduceInner_cases cat ss m sch with hsame | hlt
        · -- fix-point: the loop stops here (the lengths agree)
          have hloop : reduceLoop sch m (fuel + 1) cat ss = (cat, ss) := by
            simp only [reduceLoop, hsame]
            simp [hz]
          rw [hloop]
          have hD := catalog_noref H1 H2 hA
          exact reduceInner_fixpoint_counts cat ss m sch hD.1 hD.2
            (fun hh => hz (by simp [hh])) hsame
        · -- the catalog shrank: the loop recurses
          have hne : ¬ ((reduceInner cat ss m sch).1.length = cat.length) := by
            omega
          have hloop : reduceLoop sch m (fuel + 1) cat ss =
              reduceLoop sch m fuel (reduceInner cat ss m sch).1
                (reduceInner cat ss m sch).2 := by
            simp only [reduceLoop]
            simp only [beq_iff_eq, hz, if_neg hz]
            cases hri : reduceInner cat ss m sch with
            | mk cat2 ss2 =>
                rw [hri] at hne
                simp only at hne
                simp [hne]
          rw [hloop]
          have hpres := reduceInner_preserves A cat ss m sch H1 H2
          exact ih (reduceInner cat ss m sch).1 (reduceInner cat ss m sch).2
            (by omega) hpres.1 hpres.2


/-! ## Claim C8 -/

/-- C8: after a successful `Operation::reuse_fragments` with the default
usage threshold, every fragment name retained in the operation's final
catalog is used at least `DEFAULT_MIN_USAGES_TO_OPTIMIZE` times in total:
its spread count in the final selection set plus one spread count over each
retained fragment body.  Hypotheses: the supplied catalog is in dependency
order with pairwise-distinct names (each body's spreads — recorded bodies
included — name strictly earlier fragments), and the operation starts with
no attached fragments, as it does when produced by expansion. -/
theorem c8_catalog_reduction_bound (sch : Schema) (frags : NamedFragments)
    (op op2 : Operation)
    (hfragOk : ∀ f ∈ frags, fragOk (frags.map Fragment.name) f = true)
    (hnodup : (frags.map Fragment.name).Nodup)
    (hempty : op.namedFragments = [])
    (hok : Operation.reuseFragments op sch frags = .ok op2) :
    ∀ n ∈ op2.namedFragments.map Fragment.name,
      DEFAULT_MIN_USAGES_TO_OPTIMIZE ≤
        getCount (op2.selectionSet.usedFragments) n +
          listBodySum op2.namedFragments n := by
  unfold Operation.reuseFragments Operation.reuseFragmentsInner at hok
  by_cases hfe : frags.isEmpty
  · simp only [hfe, if_true, Except.ok.injEq] at hok
    intro n hn
    rw [← hok] at hn
    simp [hempty] at hn
  · simp only [hfe, Bool.false_eq_true, if_false] at hok
    cases hres : op.selectionSet.reuseFragments sch
        (ReuseContext.forOperation frags op.opVariables) with
    | error e =>
        rw [hres] at hok
        simp at hok
    | ok newSS =>
        rw [hres] at hok
        by_cases heqv : SelectionSet.eqv op.selectionSet newSS
        · simp only [heqv, if_true, Except.ok.injEq] at hok
          intro n hn
          rw [← hok] at hn
          simp [hempty] at hn
        · simp only [heqv, Bool.false_eq_true, if_false] at hok
          cases hred : NamedFragments.reduce frags newSS
              DEFAULT_MIN_USAGES_TO_OPTIMIZE sch with
          | mk ff fs =>
              rw [hred] at hok
              simp only [Except.ok.injEq] at hok
              have hcounts := reduceLoop_counts sch DEFAULT_MIN_USAGES_TO_OPTIMIZE
                (frags.map Fragment.name) hnodup (frags.length + 1) frags newSS
                (by omega) hfragOk (List.Sublist.refl _)
              unfold NamedFragments.reduce at hred
              rw [hred] at hcounts
              intro n hn
              rw [← hok] at hn
              simp only [List.mem_map] at hn
              obtain ⟨f, hf, hfn⟩ := hn
              rw [← hok, ← hfn]
              exact hcounts f hf


/-- Witness for C8: on the concrete run that rewrites
`query { t { id a } t2 { id a } }` with catalog `[TFrag]`, the retained
fragment `TFrag` is spread twice in the final selection set. -/
theorem c8_catalog_reduction_bound_witness :
    "TFrag" ∈ op2C4.namedFragments.map Fragment.name ∧
    DEFAULT_MIN_USAGES_TO_OPTIMIZE ≤
      getCount (op2C4.selectionSet.usedFragments) "TFrag" +
        listBodySum op2C4.namedFragments "TFrag" := by
  have hokb : exceptOk (Operation.reuseFragments opC4 schemaQ [tFrag]) = true := by
    decide
  have heq : Operation.reuseFragments opC4 schemaQ [tFrag] = .ok op2C4 := by
    cases h : Operation.reuseFragments opC4 schemaQ [tFrag] with
    | ok o => simp [op2C4, h]
    | error e => rw [h] at hokb; exact absurd hokb (by simp [exceptOk])
  refine ⟨by decide, ?_⟩
  exact c8_catalog_reduction_bound schemaQ [tFrag] opC4 op2C4
    (by decide) (by decide) rfl heq "TFrag" (by decide)


end Router
